import Mathlib

/-!
# warp-launch-config-updater: a verification development

A shallow embedding of `main.go`.

Modelling conventions.

* A Go `string` / `[]byte` is a `Str`, a list of characters.  Every string
  operation the program uses (`HasPrefix`, `HasSuffix`, `TrimSuffix`,
  `Contains`, `Split`, `Join`) compares elements only, and all patterns are
  ASCII, so the element-wise reading agrees with Go's byte-wise one on text
  that is valid UTF-8.
* An instant (`time.Time`) is an `Int`, counted in nanoseconds of Unix time.
  A time zone (`time.Location`) is its lookup of the offset in force at a
  second; `AddDate` is calendar arithmetic in the local zone.
* The file system is the launch directory alone: every path the program
  touches is `filepath.Join(launchDir, name)`, possibly with a suffix that
  holds no separator.  A directory is a list of entries in listing order.
  The path of the directory (the result of `getLaunchDir`) is a parameter.
* File operations fail for the reasons the model can see (no launch
  directory, no such entry, a directory where a file is needed, a directory
  that is not empty); permissions and partly written files are left out.
* Library routines (`strings`, `strconv`, `sort`, `ioutil`, `os`) are
  modelled from their documented behaviour.  `sort.Slice` is a parameter with
  its contract, since its result on ties is unspecified.
* The clock is a parameter of a run: the formatted time in the backup name,
  the modification times the two writes get, the time the old-backup
  clean-up reads, and the local time zone.
* Console output is left out; how a run ended is its `Outcome`.
-/

namespace WarpLaunch

/-- A Go string, as a list of characters. -/
abbrev Str := List Char

/-! ## `strings` -/

/-- `strings.HasPrefix(s, pre)`. -/
def HasPrefix (s pre : Str) : Bool := pre.isPrefixOf s

/-- `strings.HasSuffix(s, suf)`. -/
def HasSuffix (s suf : Str) : Bool := suf.isSuffixOf s

/-- `strings.TrimSuffix(s, suf)`: `s` without the trailing `suf`, or `s`
itself when it does not end in `suf`. -/
def TrimSuffix (s suf : Str) : Str :=
  if HasSuffix s suf then s.take (s.length - suf.length) else s

/-- `strings.Contains(s, sub)`: `sub` starts at some position of `s`. -/
def Contains (s sub : Str) : Bool := s.tails.any (fun t => HasPrefix t sub)

/-- `strings.Split(s, sep)` for a separator of one character: the pieces
between the separators; the empty string gives one empty piece. -/
def Split : Str → Char → List Str
  | [], _ => [[]]
  | c :: cs, sep =>
    if c = sep then [] :: Split cs sep
    else
      match Split cs sep with
      | [] => [[c]]
      | l :: ls => (c :: l) :: ls

/-- `strings.Join(elems, sep)`. -/
def Join : List Str → Str → Str
  | [], _ => []
  | [l], _ => l
  | l :: ls, sep => l ++ sep ++ Join ls sep

/-- `strings.TrimSpace` removes the characters for which `unicode.IsSpace`
holds: the Latin-1 spaces and the code points with the White_Space property. -/
def isSpace (c : Char) : Bool :=
  c.toNat = 0x09 || c.toNat = 0x0A || c.toNat = 0x0B || c.toNat = 0x0C || c.toNat = 0x0D
    || c.toNat = 0x20 || c.toNat = 0x85 || c.toNat = 0xA0 || c.toNat = 0x1680
    || (0x2000 ≤ c.toNat && c.toNat ≤ 0x200A)
    || c.toNat = 0x2028 || c.toNat = 0x2029 || c.toNat = 0x202F || c.toNat = 0x205F
    || c.toNat = 0x3000

/-- `strings.TrimSpace(s)`: leading and trailing white space removed. -/
def TrimSpace (s : Str) : Str :=
  ((s.dropWhile isSpace).reverse.dropWhile isSpace).reverse

/-! ## `updateConfig` -/

/-- The loop of `updateConfig`: the first line that begins with `name:` is
replaced by `name: <targetName>`, then the loop breaks. -/
def renameFirst (targetName : Str) : List Str → List Str
  | [] => []
  | line :: rest =>
    if HasPrefix line "name:".toList then ("name: ".toList ++ targetName) :: rest
    else line :: renameFirst targetName rest

/-- The content `updateConfig` writes to the target, from the content it read
from the temp file: split on newline, rename, join. -/
def newContent (content targetName : Str) : Str :=
  Join (renameFirst targetName (Split content '\n')) "\n".toList

/-! ## `strconv` -/

/-- Value of a decimal digit. -/
def digitVal (c : Char) : Option Nat :=
  if 48 ≤ c.toNat ∧ c.toNat ≤ 57 then some (c.toNat - 48) else none

/-- Value of a run of decimal digits read left to right, starting from `n`;
`none` as soon as a character is not a digit. -/
def digitsValue : Str → Nat → Option Nat
  | [], n => some n
  | c :: cs, n =>
    match digitVal c with
    | some d => digitsValue cs (n * 10 + d)
    | none => none

/-- `strconv.Atoi(s)` on a 64-bit platform: an optional sign, then one or more
decimal digits, the value within the range of `int`; `none` is a non-nil
error (syntax or range). -/
def Atoi (s : Str) : Option Int :=
  let neg := s.head? = some '-'
  let ds := if s.head? = some '-' ∨ s.head? = some '+' then s.tail else s
  if ds = [] then none
  else
    match digitsValue ds 0 with
    | none => none
    | some n =>
      if neg then (if n ≤ 2 ^ 63 then some (-(n : Int)) else none)
      else (if n < 2 ^ 63 then some (n : Int) else none)

/-! ## `bufio` -/

/-- `reader.ReadString(delim)` on a fresh reader over standard input: the
text up to and including the first `delim`, or all of it when there is none
(the error is dropped by the caller). -/
def ReadString : Str → Char → Str
  | [], _ => []
  | c :: cs, delim => if c = delim then [c] else c :: ReadString cs delim

/-! ## `time` -/

/-- `t.After(u)`. -/
def After (t u : Int) : Bool := decide (u < t)

/-- `t.Before(u)`. -/
def Before (t u : Int) : Bool := decide (t < u)

/-- Nanoseconds in a day. -/
def day : Int := 86400000000000

/-- Nanoseconds in a second. -/
def second : Int := 1000000000

/-- A `time.Location`, as its `lookup`: for a second of Unix time, the offset
east of UTC in force then (in seconds), and the first second and the second
after the last of the span over which that offset is in force. -/
structure Location where
  lookup : Int → Int × Int × Int

/-- `t.AddDate(0, 0, days)` for `t` in location `loc`.  `AddDate` takes the
date and the clock of `t` in `loc`, moves the day by `days` and hands the
fields to `time.Date`, so the wall-clock count of seconds moves by
`days * 86400`; `Date` then turns the wall-clock reading back into an instant:
it looks the reading up as if it were UTC, and when the offset found is not
in force at the instant it gives, looks that instant up instead. -/
def AddDate (loc : Location) (t : Int) (days : Int) : Int :=
  let sec := t / second
  let nsec := t % second
  let wall := sec + (loc.lookup sec).1 + days * 86400
  let zone := loc.lookup wall
  let offset :=
    if zone.1 ≠ 0 then
      if wall - zone.1 < zone.2.1 ∨ wall - zone.1 ≥ zone.2.2 then
        (loc.lookup (wall - zone.1)).1
      else zone.1
    else zone.1
  (wall - offset) * second + nsec

/-! ## The launch directory -/

/-- What an entry of the directory is: a regular file with its content, or a
directory, empty or not. -/
inductive Node
  | file (data : Str)
  | dir (empty : Bool)
deriving DecidableEq, Repr

/-- One entry of the directory, as `os.FileInfo` describes it, together with
the node. -/
structure FileInfo where
  Name : Str
  ModTime : Int
  node : Node
deriving DecidableEq, Repr

/-- `os.FileInfo.Mode().IsRegular()`. -/
def FileInfo.IsRegular (f : FileInfo) : Bool :=
  match f.node with
  | .file _ => true
  | .dir _ => false

/-- The entries of a directory in listing order (`ioutil.ReadDir` sorts by
file name). -/
abbrev Dir := List FileInfo

/-- State of the launch directory: `none` when it is missing or unreadable. -/
abbrev FS := Option Dir

/-- `filepath.Join(launchDir, name)` for a clean `launchDir` and an entry
name. -/
def filepathJoin (launchDir name : Str) : Str := launchDir ++ '/' :: name

/-- The entry name a path refers to: what follows `launchDir/`. -/
def baseOf (launchDir path : Str) : Option Str :=
  if HasPrefix path (launchDir ++ ['/']) then some (path.drop (launchDir.length + 1))
  else none

/-- The entry of that name. -/
def lookup (name : Str) (files : Dir) : Option FileInfo :=
  files.find? (fun f => decide (f.Name = name))

/-- A new entry put at its place in file-name order. -/
def insertEntry (e : FileInfo) : Dir → Dir
  | [] => [e]
  | f :: fs => if e.Name < f.Name then e :: f :: fs else f :: insertEntry e fs

/-- `ioutil.ReadDir(launchDir)`: the entries, or `none` for an error. -/
def ReadDir (fs : FS) : Option (List FileInfo) := fs

/-- `ioutil.ReadFile(path)`: the content of a regular file; `none` is an
error (no such file, or a directory). -/
def ReadFile (launchDir : Str) (fs : FS) (path : Str) : Option Str :=
  match fs, baseOf launchDir path with
  | some files, some name =>
    match lookup name files with
    | some ⟨_, _, .file data⟩ => some data
    | _ => none
  | _, _ => none

/-- `ioutil.WriteFile(path, data, 0644)` at instant `now`: an existing regular
file is truncated and rewritten, a missing one is created; the entries after
the call, or `none` for an error (the path is a directory, or there is no
launch directory). -/
def WriteFile (launchDir : Str) (fs : FS) (path data : Str) (now : Int) : Option Dir :=
  match fs, baseOf launchDir path with
  | some files, some name =>
    match lookup name files with
    | some ⟨_, _, .dir _⟩ => none
    | some ⟨_, _, .file _⟩ =>
      some (files.map fun f => if f.Name = name then ⟨name, now, .file data⟩ else f)
    | none => some (insertEntry ⟨name, now, .file data⟩ files)
  | _, _ => none

/-- `os.Remove(path)`: removes a file or an empty directory; the entries
after the call, or `none` for an error (no such entry, or a directory that
is not empty). -/
def Remove (launchDir : Str) (fs : FS) (path : Str) : Option Dir :=
  match fs, baseOf launchDir path with
  | some files, some name =>
    match lookup name files with
    | none => none
    | some ⟨_, _, .dir false⟩ => none
    | some _ => some (files.filter fun f => decide (f.Name ≠ name))
  | _, _ => none

/-! ## Discovery -/

/-- The record of one configuration file. -/
structure ConfigFile where
  Name : Str
  Path : Str
  ModTime : Int
  IsTemp : Bool
deriving DecidableEq, Repr

/-- `findTempFiles(launchDir)`. -/
def findTempFiles (launchDir : Str) (fs : FS) : List ConfigFile :=
  let files := (ReadDir fs).getD []
  files.foldl (fun tempFiles file =>
    if HasSuffix file.Name ".yaml".toList && HasPrefix file.Name "temp".toList
        && !HasPrefix file.Name ".".toList then
      tempFiles ++ [{ Name := TrimSuffix file.Name ".yaml".toList
                      Path := filepathJoin launchDir file.Name
                      ModTime := file.ModTime
                      IsTemp := true }]
    else tempFiles) []

/-- `findAllConfigs(launchDir)`. -/
def findAllConfigs (launchDir : Str) (fs : FS) : List ConfigFile :=
  let files := (ReadDir fs).getD []
  files.foldl (fun configs file =>
    if HasSuffix file.Name ".yaml".toList && !HasPrefix file.Name ".".toList then
      configs ++ [{ Name := TrimSuffix file.Name ".yaml".toList
                    Path := filepathJoin launchDir file.Name
                    ModTime := file.ModTime
                    IsTemp := HasPrefix file.Name "temp".toList }]
    else configs) []

/-! ## `copyFile` and `updateConfig` on the directory -/

/-- `copyFile(src, dst)` with the write stamped `now`. -/
def copyFile (launchDir : Str) (fs : FS) (src dst : Str) (now : Int) : Option Dir :=
  match ReadFile launchDir fs src with
  | none => none
  | some data => WriteFile launchDir fs dst data now

/-- `updateConfig(tempPath, targetPath, targetName)` with the write stamped
`now`. -/
def updateConfig (launchDir : Str) (fs : FS) (tempPath targetPath targetName : Str)
    (now : Int) : Option Dir :=
  match ReadFile launchDir fs tempPath with
  | none => none
  | some data => WriteFile launchDir fs targetPath (newContent data targetName) now

/-! ## `sort.Slice` -/

/-- `sort.Slice` is library code whose result on ties is unspecified (the sort
is not stable).  A sorter is any function with its documented contract: the
result is a rearrangement of the input, and when `less` is a strict weak
order no element is `less` than one placed before it. -/
structure SliceSorter where
  sort : (ConfigFile → ConfigFile → Bool) → List ConfigFile → List ConfigFile
  perm : ∀ less l, List.Perm (sort less l) l
  sorted : ∀ less l,
    (∀ a b, less a b = true → less b a = false) →
    (∀ a b c, less a b = false → less b c = false → less a c = false) →
    List.Pairwise (fun a b => less b a = false) (sort less l)

/-- One pass of the inner loop of insertion sort, on the sorted part held in
reverse: `x` moves left past every element it is `less` than. -/
def sink (less : ConfigFile → ConfigFile → Bool) (x : ConfigFile) :
    List ConfigFile → List ConfigFile
  | [] => [x]
  | y :: r => if less x y then y :: sink less x r else x :: y :: r

/-- Insertion sort, the routine `sort.Slice` runs on short slices. -/
def insertionSort (less : ConfigFile → ConfigFile → Bool) (l : List ConfigFile) :
    List ConfigFile :=
  (l.foldl (fun done x => sink less x done) []).reverse

/-! ## `main` -/

/-- How a run ends. -/
inductive Outcome
  | noTempFiles
  | noConfigs
  | invalidSelection
  | backupFailed (target : ConfigFile)
  | updateFailed (target : ConfigFile)
  | updated (target : ConfigFile) (cleanupCount backupCleanupCount : Nat)
deriving DecidableEq, Repr

/-- The target a run selected, when it got past the selection. -/
def Outcome.target? : Outcome → Option ConfigFile
  | .backupFailed t => some t
  | .updateFailed t => some t
  | .updated t _ _ => some t
  | _ => none

/-- What a run reads from the clock and what the file system stamps on the
files the run writes. -/
structure Clock where
  /-- The value of `time.Now().Format("20060102_150405")` in the backup name. -/
  stamp : Str
  /-- The modification time the backup gets. -/
  backupWrite : Int
  /-- The modification time the rewritten target gets. -/
  updateWrite : Int
  /-- The value of `time.Now()` in the old-backup cleanup. -/
  cleanupNow : Int
  /-- The local time zone, `time.Local`. -/
  loc : Location

/-- The order `main` sorts the temp files by: later modification time first. -/
def newerFirst (a b : ConfigFile) : Bool := After a.ModTime b.ModTime

/-- The non-temp configs, in discovery order. -/
def nonTempConfigs (allConfigs : List ConfigFile) : List ConfigFile :=
  allConfigs.foldl (fun acc config => if !config.IsTemp then acc ++ [config] else acc) []

/-- The selection step of `main`: the line read from standard input, trimmed
and parsed, picks the target; `none` is "Invalid selection!". -/
def selectTarget (nonTemp : List ConfigFile) (stdin : Str) : Option ConfigFile :=
  let input := TrimSpace (ReadString stdin '\n')
  match Atoi input with
  | none => none
  | some selection =>
    if selection < 1 ∨ selection > (nonTemp.length : Int) then none
    else nonTemp.get? (selection - 1).toNat

/-- The backup path of a target. -/
def backupPathOf (target : ConfigFile) (stamp : Str) : Str :=
  target.Path ++ ".backup.".toList ++ stamp

/-- The temp clean-up loop of `main`: each temp file is removed, failures are
skipped, successes counted. -/
def cleanupTemp (launchDir : Str) (tempFiles : List ConfigFile) (fs : FS) : FS × Nat :=
  tempFiles.foldl (fun st tempFile =>
    match Remove launchDir st.1 tempFile.Path with
    | some files => (some files, st.2 + 1)
    | none => st) (fs, 0)

/-- The old-backup clean-up of `main`: the directory is listed, and each entry
whose name contains `.backup.` and whose modification time is before seven
days ago is removed; failures are skipped, successes counted. -/
def cleanupBackups (launchDir : Str) (fs : FS) (loc : Location) (now : Int) : FS × Nat :=
  let files := (ReadDir fs).getD []
  let sevenDaysAgo := AddDate loc now (-7)
  files.foldl (fun st file =>
    if Contains file.Name ".backup.".toList && Before file.ModTime sevenDaysAgo then
      match Remove launchDir st.1 (filepathJoin launchDir file.Name) with
      | some files' => (some files', st.2 + 1)
      | none => st
    else st) (fs, 0)

/-- The program `main`, as a function from the launch directory's path and
state, standard input and the clock to the state it leaves and how it ended. -/
def main (S : SliceSorter) (launchDir : Str) (fs : FS) (stdin : Str) (clk : Clock) :
    FS × Outcome :=
  let tempFiles := findTempFiles launchDir fs
  if tempFiles = [] then (fs, .noTempFiles)
  else
  match S.sort newerFirst tempFiles with
  | [] => (fs, .noTempFiles) -- not reached: sorting keeps the elements
  | latestTemp :: sortedRest =>
    let nonTemp := nonTempConfigs (findAllConfigs launchDir fs)
    if nonTemp = [] then (fs, .noConfigs)
    else
      match selectTarget nonTemp stdin with
      | none => (fs, .invalidSelection)
      | some targetConfig =>
        let backupPath := backupPathOf targetConfig clk.stamp
        match copyFile launchDir fs targetConfig.Path backupPath clk.backupWrite with
        | none => (fs, .backupFailed targetConfig)
        | some files1 =>
          match updateConfig launchDir (some files1) latestTemp.Path targetConfig.Path
              targetConfig.Name clk.updateWrite with
          | none => (some files1, .updateFailed targetConfig)
          | some files2 =>
            let c := cleanupTemp launchDir (latestTemp :: sortedRest) (some files2)
            let b := cleanupBackups launchDir c.1 clk.loc clk.cleanupNow
            (b.1, .updated targetConfig c.2 b.2)

/-- What `main` does once a target is selected: backup, update, clean-up. -/
def afterSelection (launchDir : Str) (fs : FS) (clk : Clock)
    (sorted : List ConfigFile) (latestTemp targetConfig : ConfigFile) : FS × Outcome :=
  match copyFile launchDir fs targetConfig.Path (backupPathOf targetConfig clk.stamp)
      clk.backupWrite with
  | none => (fs, .backupFailed targetConfig)
  | some files1 =>
    match updateConfig launchDir (some files1) latestTemp.Path targetConfig.Path
        targetConfig.Name clk.updateWrite with
    | none => (some files1, .updateFailed targetConfig)
    | some files2 =>
      let c := cleanupTemp launchDir sorted (some files2)
      let b := cleanupBackups launchDir c.1 clk.loc clk.cleanupNow
      (b.1, .updated targetConfig c.2 b.2)

/-! ## Insertion sort as a sorter -/

/-- Insertion sort meets the contract of `sort.Slice`. -/
def insertionSorter : SliceSorter where
  sort := insertionSort
  perm := by
    intro less l
    have hsink : ∀ (x : ConfigFile) (r : List ConfigFile),
        List.Perm (sink less x r) (x :: r) := by
      intro x r
      induction r with
      | nil => simp [sink]
      | cons y r ih =>
        unfold sink
        split
        · exact (List.Perm.cons y ih).trans (List.Perm.swap x y r)
        · exact List.Perm.refl _
    have hfold : ∀ (l acc : List ConfigFile),
        List.Perm (l.foldl (fun done x => sink less x done) acc) (l ++ acc) := by
      intro l
      induction l with
      | nil => intro acc; simp
      | cons x l ih =>
        intro acc
        simp only [List.foldl_cons]
        refine (ih _).trans ?_
        refine (List.Perm.append_left l (hsink x acc)).trans ?_
        simp
    unfold insertionSort
    refine (List.reverse_perm _).trans ?_
    have := hfold l []
    simpa using this
  sorted := by
    intro less l hasym htrans
    have hsink : ∀ (x : ConfigFile) (r : List ConfigFile),
        List.Perm (sink less x r) (x :: r) := by
      intro x r
      induction r with
      | nil => simp [sink]
      | cons y r ih =>
        unfold sink
        split
        · exact (List.Perm.cons y ih).trans (List.Perm.swap x y r)
        · exact List.Perm.refl _
    have hsorted : ∀ (x : ConfigFile) (r : List ConfigFile),
        List.Pairwise (fun a b => less a b = false) r →
        List.Pairwise (fun a b => less a b = false) (sink less x r) := by
      intro x r
      induction r with
      | nil => intro _; simp [sink]
      | cons y r ih =>
        intro h
        unfold sink
        rw [List.pairwise_cons] at h
        split
        · rename_i hxy
          rw [List.pairwise_cons]
          refine ⟨?_, ih h.2⟩
          intro z hz
          rcases List.mem_cons.mp ((hsink x r).mem_iff.mp hz) with rfl | hz
          · exact hasym _ _ hxy
          · exact h.1 z hz
        · rename_i hxy
          have hxy : less x y = false := by simpa using hxy
          rw [List.pairwise_cons]
          refine ⟨?_, List.pairwise_cons.mpr h⟩
          intro z hz
          rcases List.mem_cons.mp hz with rfl | hz
          · exact hxy
          · exact htrans _ _ _ hxy (h.1 z hz)
    unfold insertionSort
    rw [List.pairwise_reverse]
    suffices h : ∀ acc, List.Pairwise (fun a b => less a b = false) acc →
        List.Pairwise (fun a b => less a b = false)
          (l.foldl (fun done x => sink less x done) acc) from h [] List.Pairwise.nil
    induction l with
    | nil => intro acc h; simpa using h
    | cons x l ih =>
      intro acc h
      simp only [List.foldl_cons]
      exact ih _ (hsorted x acc h)

/-! ## Specification-side and proof-side definitions -/

/-- Spec-side definition.  The record discovery gives for one directory entry:
an entry whose file name ends in `.yaml` and does not begin with `.` gives a
record, any other entry gives none. -/
def specRecord (launchDir : Str) (e : FileInfo) : Option ConfigFile :=
  if ".yaml".toList <:+ e.Name ∧ ¬ ".".toList <+: e.Name then
    some { Name := e.Name.take (e.Name.length - 5)
           Path := launchDir ++ "/".toList ++ e.Name
           ModTime := e.ModTime
           IsTemp := decide ("temp".toList <+: e.Name) }
  else none

/-- The record `findAllConfigs` appends for an entry, if any. -/
def configOf (launchDir : Str) (file : FileInfo) : Option ConfigFile :=
  if HasSuffix file.Name ".yaml".toList && !HasPrefix file.Name ".".toList then
    some { Name := TrimSuffix file.Name ".yaml".toList
           Path := filepathJoin launchDir file.Name
           ModTime := file.ModTime
           IsTemp := HasPrefix file.Name "temp".toList }
  else none

/-- The record `findTempFiles` appends for an entry, if any. -/
def tempOf (launchDir : Str) (file : FileInfo) : Option ConfigFile :=
  if HasSuffix file.Name ".yaml".toList && HasPrefix file.Name "temp".toList
      && !HasPrefix file.Name ".".toList then
    some { Name := TrimSuffix file.Name ".yaml".toList
           Path := filepathJoin launchDir file.Name
           ModTime := file.ModTime
           IsTemp := true }
  else none

/-- Every entry named like `x` is `x`, and there is one. -/
def Holds (files : Dir) (x : FileInfo) : Prop :=
  x ∈ files ∧ ∀ f ∈ files, f.Name = x.Name → f = x

/-- The entries named `name` are kept as they are. -/
def SameAt (name : Str) (old new : Dir) : Prop :=
  ∀ f, f.Name = name → (f ∈ new ↔ f ∈ old)

/-- One step of a removal loop: when `p` holds the path is removed and a
success is counted; a failure is skipped. -/
def removeStep {α : Type} (launchDir : Str) (p : α → Bool) (path : α → Str)
    (st : FS × Nat) (a : α) : FS × Nat :=
  if p a then
    match Remove launchDir st.1 (path a) with
    | some files' => (some files', st.2 + 1)
    | none => st
  else st

/-! ## Examples -/

/-- The directory of the specification's example, `temp1.yaml` older than
`temp2.yaml`, `work.yaml`, with a backup nine days old and one two days
old at instant `10 * day`. -/
def exampleDir : Dir :=
  [ ⟨"temp1.yaml".toList, 9 * day, .file "name: temp1\nwindows: a\n".toList⟩,
    ⟨"temp2.yaml".toList, 9 * day + 1, .file "name: temp2\nwindows: b\n".toList⟩,
    ⟨"work.yaml".toList, 5 * day, .file "name: work\nwindows: old\n".toList⟩,
    ⟨"work.yaml.backup.19700102_000000".toList, 1 * day, .file "name: work\n".toList⟩,
    ⟨"work.yaml.backup.19700109_000000".toList, 8 * day, .file "name: work\n".toList⟩ ]

/-- The location `time.UTC`: offset zero at every instant. -/
def utc : Location :=
  { lookup := fun _ => (0, -9223372036854775808, 9223372036854775807) }

/-- The zone of New York around the end of daylight saving time on
1 November 2026, 06:00 UTC: four hours west of UTC before it, five hours
after. -/
def newYork : Location :=
  { lookup := fun sec =>
      if sec < 1793512800 then (-14400, 1772953200, 1793512800)
      else (-18000, 1793512800, 1805007600) }

/-- The clock of a run at instant `10 * day`, in UTC. -/
def exampleClock : Clock :=
  { stamp := "19700111_000000".toList
    backupWrite := 10 * day
    updateWrite := 10 * day + 1
    cleanupNow := 10 * day + 2
    loc := utc }

/-! # Theorems -/

theorem hasPrefix_iff (s pre : Str) : HasPrefix s pre = true ↔ pre <+: s := by
  simp [HasPrefix]

theorem hasSuffix_iff (s suf : Str) : HasSuffix s suf = true ↔ suf <:+ s := by
  simp [HasSuffix]

theorem trimSuffix_append (s suf : Str) (h : HasSuffix s suf = true) :
    TrimSuffix s suf ++ suf = s := by
  obtain ⟨t, rfl⟩ := (hasSuffix_iff s suf).mp h
  simp [TrimSuffix, h]

theorem foldl_if_append {α β : Type} (p : α → Bool) (g : α → β) (l : List α) (acc : List β) :
    l.foldl (fun acc a => if p a then acc ++ [g a] else acc) acc
      = acc ++ l.filterMap (fun a => if p a then some (g a) else none) := by
  induction l generalizing acc with
  | nil => simp
  | cons a l ih =>
    simp only [List.foldl_cons, List.filterMap_cons]
    rw [ih]
    cases p a <;> simp

theorem findAllConfigs_eq (launchDir : Str) (fs : FS) :
    findAllConfigs launchDir fs = (fs.getD []).filterMap (configOf launchDir) := by
  have h := foldl_if_append
    (fun file : FileInfo => HasSuffix file.Name ".yaml".toList && !HasPrefix file.Name ".".toList)
    (fun file : FileInfo => ({ Name := TrimSuffix file.Name ".yaml".toList
                               Path := filepathJoin launchDir file.Name
                               ModTime := file.ModTime
                               IsTemp := HasPrefix file.Name "temp".toList } : ConfigFile))
    (fs.getD []) []
  exact h

theorem findTempFiles_eq (launchDir : Str) (fs : FS) :
    findTempFiles launchDir fs = (fs.getD []).filterMap (tempOf launchDir) := by
  have h := foldl_if_append
    (fun file : FileInfo => HasSuffix file.Name ".yaml".toList && HasPrefix file.Name "temp".toList
        && !HasPrefix file.Name ".".toList)
    (fun file : FileInfo => ({ Name := TrimSuffix file.Name ".yaml".toList
                               Path := filepathJoin launchDir file.Name
                               ModTime := file.ModTime
                               IsTemp := true } : ConfigFile))
    (fs.getD []) []
  exact h

theorem hasPrefix_eq (s pre : Str) : HasPrefix s pre = decide (pre <+: s) := by
  rw [Bool.eq_iff_iff]; simp [HasPrefix]

theorem hasSuffix_eq (s suf : Str) : HasSuffix s suf = decide (suf <:+ s) := by
  rw [Bool.eq_iff_iff]; simp [HasSuffix]

theorem configOf_eq_specRecord (launchDir : Str) (e : FileInfo) :
    configOf launchDir e = specRecord launchDir e := by
  unfold configOf specRecord
  simp only [hasPrefix_eq, hasSuffix_eq, TrimSuffix, filepathJoin]
  by_cases h1 : ".yaml".toList <:+ e.Name <;> by_cases h2 : ".".toList <+: e.Name <;>
    simp at h1 h2 ⊢ <;> simp [h1, h2]
theorem tempOf_eq (launchDir : Str) (e : FileInfo) :
    tempOf launchDir e = (configOf launchDir e).filter (fun c => c.IsTemp) := by
  unfold tempOf configOf
  cases h1 : HasSuffix e.Name ".yaml".toList <;> cases h2 : HasPrefix e.Name "temp".toList <;>
    cases h3 : HasPrefix e.Name ".".toList <;> simp [Option.filter, h2]

theorem findTempFiles_eq_filter (launchDir : Str) (fs : FS) :
    findTempFiles launchDir fs = (findAllConfigs launchDir fs).filter (fun c => c.IsTemp) := by
  rw [findTempFiles_eq, findAllConfigs_eq, List.filter_filterMap]
  congr 1
  funext e
  exact tempOf_eq launchDir e

theorem foldl_if_keep {α : Type} (p : α → Bool) (l acc : List α) :
    l.foldl (fun acc a => if p a then acc ++ [a] else acc) acc = acc ++ l.filter p := by
  induction l generalizing acc with
  | nil => simp
  | cons a l ih =>
    simp only [List.foldl_cons, List.filter_cons]
    rw [ih]
    cases p a <;> simp

theorem nonTempConfigs_eq (allConfigs : List ConfigFile) :
    nonTempConfigs allConfigs = allConfigs.filter (fun c => !c.IsTemp) := by
  have h := foldl_if_keep (fun c : ConfigFile => !c.IsTemp) allConfigs []
  simpa [nonTempConfigs] using h

theorem mem_findAllConfigs {launchDir : Str} {fs : FS} {r : ConfigFile}
    (h : r ∈ findAllConfigs launchDir fs) :
    ∃ e ∈ fs.getD [], HasSuffix e.Name ".yaml".toList = true ∧
      HasPrefix e.Name ".".toList = false ∧
      r = { Name := TrimSuffix e.Name ".yaml".toList
            Path := filepathJoin launchDir e.Name
            ModTime := e.ModTime
            IsTemp := HasPrefix e.Name "temp".toList } := by
  rw [findAllConfigs_eq, List.mem_filterMap] at h
  obtain ⟨e, he, hr⟩ := h
  refine ⟨e, he, ?_⟩
  unfold configOf at hr
  split at hr
  · rename_i hc
    rw [Bool.and_eq_true, Bool.not_eq_true'] at hc
    injection hr with hr
    exact ⟨hc.1, hc.2, hr.symm⟩
  · cases hr

/-! ## Claims on discovery -/

/-- C7: `findAllConfigs` is the filter-map of the directory listing by the
spec-side record: one record, in listing order, per entry whose file name
ends in `.yaml` and does not begin with `.`; the record's name followed by
`.yaml` is the file name; and when the directory is missing or unreadable
both `findAllConfigs` and `findTempFiles` return the empty list. -/
theorem findAllConfigs_is_filterMap (launchDir : Str) (fs : FS) :
    findAllConfigs launchDir fs
        = (match fs with
           | none => []
           | some files => files.filterMap (specRecord launchDir))
      ∧ (∀ e r, specRecord launchDir e = some r → r.Name ++ ".yaml".toList = e.Name)
      ∧ findAllConfigs launchDir none = []
      ∧ findTempFiles launchDir none = [] := by
  refine ⟨?_, ?_, rfl, rfl⟩
  · rw [findAllConfigs_eq]
    have hfun : configOf launchDir = specRecord launchDir :=
      funext (configOf_eq_specRecord launchDir)
    rw [hfun]
    cases fs <;> rfl
  · intro e r h
    unfold specRecord at h
    split at h
    · rename_i hc
      obtain ⟨t, ht⟩ := hc.1
      simp only [Option.some.injEq] at h
      rw [← h, ← ht]
      simp
    · exact absurd h (by simp)

/-- C9, the claim as stated fails: a subdirectory named `sub.yaml` is
returned by `findAllConfigs` as a named config, and a subdirectory named
`temp-old.yaml` is returned by `findTempFiles` as a temp config. -/
theorem discovery_returns_directories :
    findAllConfigs "/d".toList (some [⟨"sub.yaml".toList, 0, .dir true⟩])
        = [⟨"sub".toList, "/d/sub.yaml".toList, 0, false⟩]
      ∧ findTempFiles "/d".toList (some [⟨"temp-old.yaml".toList, 0, .dir false⟩])
        = [⟨"temp-old".toList, "/d/temp-old.yaml".toList, 0, true⟩]
      ∧ FileInfo.IsRegular ⟨"sub.yaml".toList, 0, .dir true⟩ = false
      ∧ FileInfo.IsRegular ⟨"temp-old.yaml".toList, 0, .dir false⟩ = false := by
  decide

/-- C9, amended: discovery filters by file name alone and never looks at the
entry type.  For every directory listing, the records of `findAllConfigs` are
exactly the records of the listing entries, regular files or not, whose name
ends in `.yaml` and does not begin with `.`, and the records of
`findTempFiles` exactly the records of those whose name also begins with
`temp`; two listings that agree on names and modification times give the
same records; and every record corresponds to a regular file when every entry
of the listing whose name ends in `.yaml` is one. -/
theorem discovery_by_name_alone (launchDir : Str) (files : Dir) :
    (∀ r, r ∈ findAllConfigs launchDir (some files) ↔
        ∃ e ∈ files, HasSuffix e.Name ".yaml".toList = true
          ∧ HasPrefix e.Name ".".toList = false
          ∧ r = { Name := TrimSuffix e.Name ".yaml".toList
                  Path := filepathJoin launchDir e.Name
                  ModTime := e.ModTime
                  IsTemp := HasPrefix e.Name "temp".toList })
      ∧ (∀ r, r ∈ findTempFiles launchDir (some files) ↔
        ∃ e ∈ files, HasSuffix e.Name ".yaml".toList = true
          ∧ HasPrefix e.Name "temp".toList = true
          ∧ HasPrefix e.Name ".".toList = false
          ∧ r = { Name := TrimSuffix e.Name ".yaml".toList
                  Path := filepathJoin launchDir e.Name
                  ModTime := e.ModTime
                  IsTemp := true })
      ∧ (∀ files' : Dir,
          files'.map (fun e => (e.Name, e.ModTime)) = files.map (fun e => (e.Name, e.ModTime)) →
          findAllConfigs launchDir (some files') = findAllConfigs launchDir (some files)
            ∧ findTempFiles launchDir (some files') = findTempFiles launchDir (some files))
      ∧ ((∀ e ∈ files, HasSuffix e.Name ".yaml".toList = true → e.IsRegular = true) →
          ∀ r, (r ∈ findAllConfigs launchDir (some files)
              ∨ r ∈ findTempFiles launchDir (some files)) →
            ∃ e ∈ files, e.IsRegular = true
              ∧ r.Name = TrimSuffix e.Name ".yaml".toList
              ∧ r.Path = filepathJoin launchDir e.Name
              ∧ r.ModTime = e.ModTime
              ∧ r.IsTemp = HasPrefix e.Name "temp".toList) := by
  have hall : ∀ r, r ∈ findAllConfigs launchDir (some files) ↔
      ∃ e ∈ files, HasSuffix e.Name ".yaml".toList = true
        ∧ HasPrefix e.Name ".".toList = false
        ∧ r = { Name := TrimSuffix e.Name ".yaml".toList
                Path := filepathJoin launchDir e.Name
                ModTime := e.ModTime
                IsTemp := HasPrefix e.Name "temp".toList } := by
    intro r
    constructor
    · exact fun h => mem_findAllConfigs h
    · rintro ⟨e, he, h1, h2, hr⟩
      rw [findAllConfigs_eq, List.mem_filterMap]
      refine ⟨e, he, ?_⟩
      unfold configOf
      rw [if_pos (by rw [h1, h2]; rfl), hr]
  have hkey : ∀ files' : Dir,
      files'.map (fun e => (e.Name, e.ModTime)) = files.map (fun e => (e.Name, e.ModTime)) →
      findAllConfigs launchDir (some files') = findAllConfigs launchDir (some files) := by
    intro files' hmap
    have hfac : ∀ l : Dir, l.filterMap (configOf launchDir)
        = (l.map (fun e => (e.Name, e.ModTime))).filterMap
            (fun p => configOf launchDir ⟨p.1, p.2, .file []⟩) := by
      intro l
      rw [List.filterMap_map]
      rfl
    rw [findAllConfigs_eq, findAllConfigs_eq]
    show files'.filterMap (configOf launchDir) = files.filterMap (configOf launchDir)
    rw [hfac files', hfac files, hmap]
  refine ⟨hall, ?_, ?_, ?_⟩
  · intro r
    rw [findTempFiles_eq_filter, List.mem_filter, hall]
    constructor
    · rintro ⟨⟨e, he, h1, h2, hr⟩, ht⟩
      rw [hr] at ht
      have ht : HasPrefix e.Name "temp".toList = true := ht
      refine ⟨e, he, h1, ht, h2, ?_⟩
      rw [hr, ht]
    · rintro ⟨e, he, h1, ht, h2, hr⟩
      refine ⟨⟨e, he, h1, h2, ?_⟩, ?_⟩
      · rw [hr, ht]
      · rw [hr]
  · intro files' hmap
    refine ⟨hkey files' hmap, ?_⟩
    rw [findTempFiles_eq_filter, findTempFiles_eq_filter, hkey files' hmap]
  · intro hreg r hr
    have hmem : r ∈ findAllConfigs launchDir (some files) := by
      rcases hr with h | h
      · exact h
      · rw [findTempFiles_eq_filter] at h
        exact (List.mem_filter.mp h).1
    obtain ⟨e, he, h1, _, hrec⟩ := (hall r).mp hmem
    refine ⟨e, he, hreg e he h1, ?_, ?_, ?_, ?_⟩ <;> rw [hrec]

/-- C10: the two discovery functions agree.  `findTempFiles` returns exactly
the records of `findAllConfigs` whose `IsTemp` flag is true, in the same
order; the menu is the records whose flag is false; the list the temp
clean-up walks (the sorted temp files) has the same members as
`findTempFiles`; no record is both in the menu and among the temp files, and
every discovered config is in one of the two. -/
theorem findTempFiles_agrees_with_findAllConfigs (S : SliceSorter) (launchDir : Str) (fs : FS) :
    findTempFiles launchDir fs = (findAllConfigs launchDir fs).filter (fun c => c.IsTemp)
      ∧ nonTempConfigs (findAllConfigs launchDir fs)
          = (findAllConfigs launchDir fs).filter (fun c => !c.IsTemp)
      ∧ (∀ c, c ∈ S.sort newerFirst (findTempFiles launchDir fs) ↔ c ∈ findTempFiles launchDir fs)
      ∧ (∀ c, ¬ (c ∈ findTempFiles launchDir fs ∧ c ∈ nonTempConfigs (findAllConfigs launchDir fs)))
      ∧ (∀ c, c ∈ findAllConfigs launchDir fs ↔
          (c ∈ findTempFiles launchDir fs ∨ c ∈ nonTempConfigs (findAllConfigs launchDir fs))) := by
  refine ⟨findTempFiles_eq_filter launchDir fs, nonTempConfigs_eq _, ?_, ?_, ?_⟩
  · intro c
    exact (S.perm newerFirst _).mem_iff
  · intro c h
    rw [findTempFiles_eq_filter, nonTempConfigs_eq] at h
    have h1 := (List.mem_filter.mp h.1).2
    have h2 := (List.mem_filter.mp h.2).2
    simp [h1] at h2
  · intro c
    rw [findTempFiles_eq_filter, nonTempConfigs_eq]
    simp only [List.mem_filter]
    cases c.IsTemp <;> simp

/-! ## `Split` and `Join` -/

theorem split_ne_nil (s : Str) (sep : Char) : Split s sep ≠ [] := by
  induction s with
  | nil => simp [Split]
  | cons c cs ih =>
    unfold Split
    split
    · simp
    · split <;> simp

theorem join_cons_cons (l l2 : Str) (ls : List Str) (sep : Str) :
    Join (l :: l2 :: ls) sep = l ++ sep ++ Join (l2 :: ls) sep := rfl

theorem join_split (s : Str) (sep : Char) : Join (Split s sep) [sep] = s := by
  induction s with
  | nil => rfl
  | cons c cs ih =>
    unfold Split
    split
    · rename_i hc
      cases h : Split cs sep with
      | nil => exact absurd h (split_ne_nil cs sep)
      | cons l ls =>
        rw [h] at ih
        rw [join_cons_cons, ih, hc]
        rfl
    · cases h : Split cs sep with
      | nil => exact absurd h (split_ne_nil cs sep)
      | cons l ls =>
        rw [h] at ih
        cases ls with
        | nil =>
          simp only [Join] at ih ⊢
          rw [ih]
        | cons l2 ls =>
          rw [join_cons_cons] at ih ⊢
          rw [← ih]
          simp

theorem split_no_sep (s : Str) (sep : Char) : ∀ l ∈ Split s sep, sep ∉ l := by
  induction s with
  | nil => simp [Split]
  | cons c cs ih =>
    unfold Split
    split
    · intro l hl
      rcases List.mem_cons.mp hl with rfl | hl
      · simp
      · exact ih l hl
    · rename_i hc
      cases h : Split cs sep with
      | nil => exact absurd h (split_ne_nil cs sep)
      | cons l0 ls =>
        rw [h] at ih
        intro l hl
        rcases List.mem_cons.mp hl with rfl | hl
        · intro hmem
          rcases List.mem_cons.mp hmem with rfl | hmem
          · exact hc rfl
          · exact ih l0 (List.mem_cons_self _ _) hmem
        · exact ih l (List.mem_cons_of_mem _ hl)

theorem split_append_sep (l rest : Str) (sep : Char) (hl : sep ∉ l) :
    Split (l ++ sep :: rest) sep = l :: Split rest sep := by
  induction l with
  | nil => simp [Split]
  | cons c cs ih =>
    have hc : c ≠ sep := fun h => hl (by simp [h])
    have hcs : sep ∉ cs := fun h => hl (List.mem_cons_of_mem _ h)
    rw [List.cons_append, Split, if_neg hc, ih hcs]

theorem split_of_no_sep (l : Str) (sep : Char) (hl : sep ∉ l) : Split l sep = [l] := by
  induction l with
  | nil => rfl
  | cons c cs ih =>
    have hc : c ≠ sep := fun h => hl (by simp [h])
    have hcs : sep ∉ cs := fun h => hl (List.mem_cons_of_mem _ h)
    rw [Split, if_neg hc, ih hcs]

theorem split_join (ls : List Str) (sep : Char) (hne : ls ≠ [])
    (h : ∀ l ∈ ls, sep ∉ l) : Split (Join ls [sep]) sep = ls := by
  induction ls with
  | nil => exact absurd rfl hne
  | cons l ls ih =>
    cases ls with
    | nil => exact split_of_no_sep l sep (h l (List.mem_cons_self _ _))
    | cons l2 ls =>
      rw [join_cons_cons]
      have : l ++ [sep] ++ Join (l2 :: ls) [sep] = l ++ sep :: Join (l2 :: ls) [sep] := by simp
      rw [this, split_append_sep l _ sep (h l (List.mem_cons_self _ _)),
        ih (by simp) (fun l' hl' => h l' (List.mem_cons_of_mem _ hl'))]

/-! ## `renameFirst` -/

theorem renameFirst_length (n : Str) (lines : List Str) :
    (renameFirst n lines).length = lines.length := by
  induction lines with
  | nil => rfl
  | cons l ls ih =>
    unfold renameFirst
    split <;> simp [ih]

theorem renameFirst_ne_nil (n : Str) (lines : List Str) (h : lines ≠ []) :
    renameFirst n lines ≠ [] := by
  intro h0
  have := renameFirst_length n lines
  rw [h0] at this
  exact h (List.length_eq_zero.mp this.symm)

theorem renameFirst_of_none (n : Str) (lines : List Str)
    (h : ∀ l ∈ lines, HasPrefix l "name:".toList = false) : renameFirst n lines = lines := by
  induction lines with
  | nil => rfl
  | cons l ls ih =>
    have hl := h l (List.mem_cons_self _ _)
    rw [renameFirst, if_neg (by rw [hl]; exact Bool.false_ne_true),
      ih (fun l' hl' => h l' (List.mem_cons_of_mem _ hl'))]

theorem renameFirst_at_first (n : Str) (lines : List Str) (i : Nat) (line : Str)
    (hi : lines.get? i = some line) (hp : HasPrefix line "name:".toList = true)
    (hfirst : ∀ j l, j < i → lines.get? j = some l → HasPrefix l "name:".toList = false) :
    (renameFirst n lines).get? i = some ("name: ".toList ++ n) ∧
      ∀ j, j ≠ i → (renameFirst n lines).get? j = lines.get? j := by
  induction lines generalizing i with
  | nil => simp at hi
  | cons l ls ih =>
    cases i with
    | zero =>
      simp only [List.get?_cons_zero, Option.some.injEq] at hi
      subst hi
      rw [renameFirst, if_pos hp]
      refine ⟨rfl, ?_⟩
      intro j hj
      cases j with
      | zero => exact absurd rfl hj
      | succ j => rfl
    | succ i =>
      have hl : HasPrefix l "name:".toList = false := hfirst 0 l (Nat.succ_pos _) rfl
      rw [renameFirst, if_neg (by rw [hl]; exact Bool.false_ne_true)]
      have ih' := ih i hi (fun j l' hj hl' => hfirst (j + 1) l' (Nat.succ_lt_succ hj) hl')
      refine ⟨ih'.1, ?_⟩
      intro j hj
      cases j with
      | zero => rfl
      | succ j => exact ih'.2 j (fun h => hj (by rw [h]))

theorem renameFirst_no_sep (n : Str) (sep : Char) (hn : sep ∉ n)
    (hk : sep ∉ "name: ".toList) (lines : List Str)
    (h : ∀ l ∈ lines, sep ∉ l) : ∀ l ∈ renameFirst n lines, sep ∉ l := by
  induction lines with
  | nil => simp [renameFirst]
  | cons l0 ls ih =>
    unfold renameFirst
    split
    · intro l hl
      rcases List.mem_cons.mp hl with rfl | hl
      · intro hm
        rcases List.mem_append.mp hm with hm | hm
        · exact hk hm
        · exact hn hm
      · exact h l (List.mem_cons_of_mem _ hl)
    · intro l hl
      rcases List.mem_cons.mp hl with rfl | hl
      · exact h l (List.mem_cons_self _ _)
      · exact ih (fun l' hl' => h l' (List.mem_cons_of_mem _ hl')) l hl

/-! ## Claim on the rewrite -/

/-- C1, the claim as stated fails: with a target name that holds a newline,
the written content has more lines than the temp content. -/
theorem newContent_more_lines :
    (Split (newContent "name: x".toList "a\nb".toList) '\n').length = 2
      ∧ (Split "name: x".toList '\n').length = 1
      ∧ Split (newContent "name: x".toList "a\nb".toList) '\n'
          = ["name: a".toList, "b".toList] := by
  decide

/-- C1, amended: for every temp content and every target name that holds no
newline, the written content, split on newline, has as many lines as the temp
content; if a line begins with `name:`, the line at the index of the first
such line is `name: <target name>` and every other line is the temp content's
line at the same index; if no line begins with `name:`, the written content
is the temp content (this last part for every target name). -/
theorem newContent_lines (content targetName : Str) (hname : '\n' ∉ targetName) :
    (Split (newContent content targetName) '\n').length = (Split content '\n').length
      ∧ (∀ i line, (Split content '\n').get? i = some line →
          HasPrefix line "name:".toList = true →
          (∀ j l, j < i → (Split content '\n').get? j = some l →
            HasPrefix l "name:".toList = false) →
          (Split (newContent content targetName) '\n').get? i
              = some ("name: ".toList ++ targetName)
            ∧ ∀ j, j ≠ i → (Split (newContent content targetName) '\n').get? j
                = (Split content '\n').get? j)
      ∧ ((∀ l ∈ Split content '\n', HasPrefix l "name:".toList = false) →
          ∀ anyName, newContent content anyName = content) := by
  have hsplit : Split (newContent content targetName) '\n'
      = renameFirst targetName (Split content '\n') := by
    unfold newContent
    exact split_join _ '\n' (renameFirst_ne_nil _ _ (split_ne_nil _ _))
      (renameFirst_no_sep targetName '\n' hname (by decide) _ (split_no_sep content '\n'))
  refine ⟨?_, ?_, ?_⟩
  · rw [hsplit, renameFirst_length]
  · intro i line hi hp hfirst
    rw [hsplit]
    exact renameFirst_at_first targetName _ i line hi hp hfirst
  · intro hnone anyName
    unfold newContent
    rw [renameFirst_of_none anyName _ hnone]
    exact join_split content '\n'

/-- Witness for C1 amended: a temp content with two `name:` lines. -/
theorem newContent_lines_witness :
    '\n' ∉ "work".toList
      ∧ (Split (newContent "a\nname: x\nname: y\n".toList "work".toList) '\n').length
        = (Split "a\nname: x\nname: y\n".toList '\n').length :=
  ⟨by decide, (newContent_lines "a\nname: x\nname: y\n".toList "work".toList (by decide)).1⟩

/-! ## Claim on the update source -/

theorem newerFirst_asymm (a b : ConfigFile) (h : newerFirst a b = true) :
    newerFirst b a = false := by
  simp only [newerFirst, After, decide_eq_true_eq, decide_eq_false_iff_not] at h ⊢
  omega

theorem newerFirst_negTrans (a b c : ConfigFile) (h1 : newerFirst a b = false)
    (h2 : newerFirst b c = false) : newerFirst a c = false := by
  simp only [newerFirst, After, decide_eq_false_iff_not] at h1 h2 ⊢
  omega

theorem sorted_head_latest (S : SliceSorter) (tempFiles : List ConfigFile)
    (latest : ConfigFile) (rest : List ConfigFile)
    (h : S.sort newerFirst tempFiles = latest :: rest) :
    latest ∈ tempFiles ∧ ∀ t ∈ tempFiles, ¬ latest.ModTime < t.ModTime := by
  have hperm := S.perm newerFirst tempFiles
  have hsorted := S.sorted newerFirst tempFiles newerFirst_asymm newerFirst_negTrans
  rw [h] at hperm hsorted
  refine ⟨hperm.mem_iff.mp (List.mem_cons_self _ _), ?_⟩
  intro t ht
  rcases List.mem_cons.mp (hperm.mem_iff.mpr ht) with rfl | ht'
  · exact lt_irrefl _
  · have := (List.pairwise_cons.mp hsorted).1 t ht'
    simpa [newerFirst, After] using this

/-- C4: for every non-empty list of discovered temp files and every sorter
that meets the contract of `sort.Slice`, the sorted list has a first element
(the update source); it is a member of the discovered list; no discovered
temp file has a strictly later modification time; and with two temp files of
different modification times the source is the newer one. -/
theorem latestTemp_is_newest (S : SliceSorter) (tempFiles : List ConfigFile)
    (hne : tempFiles ≠ []) :
    ∃ latest rest, S.sort newerFirst tempFiles = latest :: rest
      ∧ latest ∈ tempFiles
      ∧ (∀ t ∈ tempFiles, ¬ latest.ModTime < t.ModTime)
      ∧ (∀ a b, tempFiles = [a, b] → a.ModTime ≠ b.ModTime →
          latest = if a.ModTime < b.ModTime then b else a) := by
  cases h : S.sort newerFirst tempFiles with
  | nil =>
    have hperm := S.perm newerFirst tempFiles
    rw [h] at hperm
    exact absurd (List.Perm.nil_eq hperm).symm hne
  | cons latest rest =>
    obtain ⟨hmem, hmax⟩ := sorted_head_latest S tempFiles latest rest h
    refine ⟨latest, rest, rfl, hmem, hmax, ?_⟩
    intro a b hab hdiff
    subst hab
    have ha := hmax a (by simp)
    have hb := hmax b (by simp)
    by_cases hlt : a.ModTime < b.ModTime
    · rw [if_pos hlt]
      rcases List.mem_cons.mp hmem with rfl | hm
      · exact absurd hlt hb
      · simpa using hm
    · rw [if_neg hlt]
      rcases List.mem_cons.mp hmem with rfl | hm
      · rfl
      · have hm : latest = b := by simpa using hm
        subst hm
        exfalso
        omega

/-- Witness for C4: `temp1.yaml` (older) and `temp2.yaml` (newer), sorted by
insertion sort. -/
theorem latestTemp_is_newest_witness :
    ∃ latest rest,
      insertionSorter.sort newerFirst
          [⟨"temp1".toList, "/d/temp1.yaml".toList, 10, true⟩,
           ⟨"temp2".toList, "/d/temp2.yaml".toList, 20, true⟩] = latest :: rest
      ∧ latest ∈ ([⟨"temp1".toList, "/d/temp1.yaml".toList, 10, true⟩,
           ⟨"temp2".toList, "/d/temp2.yaml".toList, 20, true⟩] : List ConfigFile)
      ∧ (∀ t ∈ ([⟨"temp1".toList, "/d/temp1.yaml".toList, 10, true⟩,
           ⟨"temp2".toList, "/d/temp2.yaml".toList, 20, true⟩] : List ConfigFile),
          ¬ latest.ModTime < t.ModTime)
      ∧ (∀ a b, ([⟨"temp1".toList, "/d/temp1.yaml".toList, 10, true⟩,
           ⟨"temp2".toList, "/d/temp2.yaml".toList, 20, true⟩] : List ConfigFile) = [a, b] →
          a.ModTime ≠ b.ModTime → latest = if a.ModTime < b.ModTime then b else a) :=
  latestTemp_is_newest insertionSorter _ (by decide)

/-! ## The run, step by step -/

theorem sort_cons_of_ne_nil (S : SliceSorter) (l : List ConfigFile) (h : l ≠ []) :
    ∃ latest rest, S.sort newerFirst l = latest :: rest := by
  cases hs : S.sort newerFirst l with
  | nil =>
    have hperm := S.perm newerFirst l
    rw [hs] at hperm
    exact absurd (List.Perm.nil_eq hperm).symm h
  | cons latest rest => exact ⟨latest, rest, rfl⟩

theorem main_of_sorted (S : SliceSorter) (launchDir : Str) (fs : FS) (stdin : Str) (clk : Clock)
    (latest : ConfigFile) (rest : List ConfigFile)
    (htemp : findTempFiles launchDir fs ≠ [])
    (hs : S.sort newerFirst (findTempFiles launchDir fs) = latest :: rest) :
    main S launchDir fs stdin clk =
      if nonTempConfigs (findAllConfigs launchDir fs) = [] then (fs, .noConfigs)
      else
        match selectTarget (nonTempConfigs (findAllConfigs launchDir fs)) stdin with
        | none => (fs, .invalidSelection)
        | some targetConfig =>
          afterSelection launchDir fs clk (latest :: rest) latest targetConfig := by
  unfold main
  simp only [htemp, if_false, hs]
  rfl

theorem afterSelection_target (launchDir : Str) (fs : FS) (clk : Clock)
    (sorted : List ConfigFile) (latestTemp targetConfig : ConfigFile) :
    (afterSelection launchDir fs clk sorted latestTemp targetConfig).2.target?
      = some targetConfig := by
  unfold afterSelection
  split
  · rfl
  · split <;> rfl

theorem afterSelection_ne_invalid (launchDir : Str) (fs : FS) (clk : Clock)
    (sorted : List ConfigFile) (latestTemp targetConfig : ConfigFile) :
    (afterSelection launchDir fs clk sorted latestTemp targetConfig).2
      ≠ .invalidSelection := by
  intro h
  have := afterSelection_target launchDir fs clk sorted latestTemp targetConfig
  rw [h] at this
  cases this

theorem selectTarget_eq_some (nonTemp : List ConfigFile) (stdin : Str) (target : ConfigFile) :
    selectTarget nonTemp stdin = some target ↔
      ∃ k : Int, Atoi (TrimSpace (ReadString stdin '\n')) = some k ∧ 1 ≤ k
        ∧ k ≤ (nonTemp.length : Int) ∧ nonTemp.get? (k - 1).toNat = some target := by
  unfold selectTarget
  cases h : Atoi (TrimSpace (ReadString stdin '\n')) with
  | none => simp only [h]; simp
  | some k =>
    simp only [h, Option.some.injEq, exists_eq_left']
    by_cases hk : k < 1 ∨ k > (nonTemp.length : Int)
    · rw [if_pos hk]
      constructor
      · intro h; cases h
      · intro h; omega
    · rw [if_neg hk]
      constructor
      · intro h; exact ⟨by omega, by omega, h⟩
      · intro h; exact h.2.2

theorem selectTarget_in_range (nonTemp : List ConfigFile) (stdin : Str) (k : Int)
    (hk : Atoi (TrimSpace (ReadString stdin '\n')) = some k) (h1 : 1 ≤ k)
    (h2 : k ≤ (nonTemp.length : Int)) :
    ∃ target, nonTemp.get? (k - 1).toNat = some target
      ∧ selectTarget nonTemp stdin = some target := by
  have hlt : (k - 1).toNat < nonTemp.length := by omega
  refine ⟨nonTemp.get ⟨_, hlt⟩, List.get?_eq_get hlt, ?_⟩
  rw [selectTarget_eq_some]
  exact ⟨k, hk, h1, h2, List.get?_eq_get hlt⟩

/-! ## Claim on the selection -/

/-- C8: selection is 1-based over the menu.  For every run with temp files
and a non-empty menu of named configs: the run gets past the selection (does
not end in "Invalid selection!") if and only if the trimmed input line parses
with `Atoi` as an integer `k` with `1 ≤ k ≤ n`; and in that case the target of
the run is element `k - 1` of the named configs in discovery order. -/
theorem selection_one_based (S : SliceSorter) (launchDir : Str) (fs : FS) (stdin : Str)
    (clk : Clock) (htemp : findTempFiles launchDir fs ≠ [])
    (hmenu : nonTempConfigs (findAllConfigs launchDir fs) ≠ []) :
    ((main S launchDir fs stdin clk).2 ≠ .invalidSelection ↔
        ∃ k : Int, Atoi (TrimSpace (ReadString stdin '\n')) = some k ∧ 1 ≤ k
          ∧ k ≤ ((nonTempConfigs (findAllConfigs launchDir fs)).length : Int))
      ∧ (∀ k : Int, Atoi (TrimSpace (ReadString stdin '\n')) = some k → 1 ≤ k →
          k ≤ ((nonTempConfigs (findAllConfigs launchDir fs)).length : Int) →
          ∃ target,
            ((findAllConfigs launchDir fs).filter (fun c => !c.IsTemp)).get? (k - 1).toNat
                = some target
              ∧ (main S launchDir fs stdin clk).2.target? = some target) := by
  obtain ⟨latest, rest, hs⟩ := sort_cons_of_ne_nil S _ htemp
  rw [main_of_sorted S launchDir fs stdin clk latest rest htemp hs, if_neg hmenu]
  constructor
  · constructor
    · intro hne
      cases hsel : selectTarget (nonTempConfigs (findAllConfigs launchDir fs)) stdin with
      | none => rw [hsel] at hne; exact absurd rfl hne
      | some target =>
        obtain ⟨k, hk, h1, h2, _⟩ := (selectTarget_eq_some _ _ _).mp hsel
        exact ⟨k, hk, h1, h2⟩
    · rintro ⟨k, hk, h1, h2⟩
      obtain ⟨target, _, hsel⟩ := selectTarget_in_range _ stdin k hk h1 h2
      rw [hsel]
      exact afterSelection_ne_invalid _ _ _ _ _ _
  · intro k hk h1 h2
    obtain ⟨target, hget, hsel⟩ := selectTarget_in_range _ stdin k hk h1 h2
    rw [hsel]
    rw [nonTempConfigs_eq] at hget
    exact ⟨target, hget, afterSelection_target _ _ _ _ _ _⟩

/-! ## File-system lemmas -/

theorem baseOf_join (launchDir name : Str) :
    baseOf launchDir (filepathJoin launchDir name) = some name := by
  have h1 : HasPrefix (filepathJoin launchDir name) (launchDir ++ ['/']) = true := by
    rw [hasPrefix_iff]
    exact ⟨name, by simp [filepathJoin]⟩
  have h2 : (filepathJoin launchDir name).drop (launchDir.length + 1) = name := by
    have : filepathJoin launchDir name = (launchDir ++ ['/']) ++ name := by simp [filepathJoin]
    rw [this]
    have hlen : launchDir.length + 1 = (launchDir ++ ['/']).length := by simp
    rw [hlen, List.drop_left]
  rw [baseOf, if_pos h1, h2]

theorem join_append (launchDir name suffix : Str) :
    filepathJoin launchDir name ++ suffix = filepathJoin launchDir (name ++ suffix) := by
  simp [filepathJoin]

theorem join_injective (launchDir a b : Str)
    (h : filepathJoin launchDir a = filepathJoin launchDir b) : a = b := by
  simpa [filepathJoin] using h

theorem lookup_eq_none_iff (name : Str) (files : Dir) :
    lookup name files = none ↔ ∀ f ∈ files, f.Name ≠ name := by
  simp [lookup, List.find?_eq_none]

theorem lookup_some_mem {name : Str} {files : Dir} {e : FileInfo}
    (h : lookup name files = some e) : e ∈ files ∧ e.Name = name := by
  unfold lookup at h
  exact ⟨List.mem_of_find?_eq_some h, by simpa using List.find?_some h⟩

theorem lookup_of_holds {files : Dir} {x : FileInfo} (h : Holds files x) :
    lookup x.Name files = some x := by
  cases hl : lookup x.Name files with
  | none => exact absurd rfl ((lookup_eq_none_iff _ _).mp hl x h.1)
  | some e =>
    obtain ⟨hmem, hname⟩ := lookup_some_mem hl
    rw [h.2 e hmem hname]

theorem mem_insertEntry (e f : FileInfo) (files : Dir) :
    f ∈ insertEntry e files ↔ f = e ∨ f ∈ files := by
  induction files with
  | nil => simp [insertEntry]
  | cons g gs ih =>
    unfold insertEntry
    split
    · simp
    · simp only [List.mem_cons, ih]
      tauto

theorem readFile_of_holds (launchDir : Str) (files : Dir) (name data : Str) (t : Int)
    (h : Holds files ⟨name, t, .file data⟩) :
    ReadFile launchDir (some files) (filepathJoin launchDir name) = some data := by
  simp only [ReadFile, baseOf_join]
  have := lookup_of_holds h
  simp only at this
  rw [this]

theorem holds_of_sameAt {old new : Dir} {x : FileInfo} (hs : SameAt x.Name old new)
    (h : Holds old x) : Holds new x :=
  ⟨(hs x rfl).mpr h.1, fun f hf hn => h.2 f ((hs f hn).mp hf) hn⟩

theorem writeFile_holds (launchDir : Str) (files new : Dir) (name data : Str) (now : Int)
    (h : WriteFile launchDir (some files) (filepathJoin launchDir name) data now = some new) :
    Holds new ⟨name, now, .file data⟩ := by
  simp only [WriteFile, baseOf_join] at h
  split at h
  · cases h
  · rename_i n0 t0 d0 hl
    injection h with h
    subst h
    obtain ⟨hmem, hname⟩ := lookup_some_mem hl
    simp only at hname
    constructor
    · rw [List.mem_map]
      exact ⟨_, hmem, by simp [hname]⟩
    · intro f hf hn
      rw [List.mem_map] at hf
      obtain ⟨g, _, hg⟩ := hf
      by_cases hgn : g.Name = name
      · rw [if_pos hgn] at hg
        exact hg.symm
      · rw [if_neg hgn] at hg
        subst hg
        exact absurd hn hgn
  · rename_i hl
    injection h with h
    subst h
    constructor
    · exact (mem_insertEntry _ _ _).mpr (Or.inl rfl)
    · intro f hf hn
      rcases (mem_insertEntry _ _ _).mp hf with h | h
      · exact h
      · exact absurd hn ((lookup_eq_none_iff _ _).mp hl f h)

theorem writeFile_sameAt (launchDir : Str) (files new : Dir) (name other data : Str)
    (now : Int) (hne : other ≠ name)
    (h : WriteFile launchDir (some files) (filepathJoin launchDir name) data now = some new) :
    SameAt other files new := by
  simp only [WriteFile, baseOf_join] at h
  intro f hf
  split at h
  · cases h
  · injection h with h
    subst h
    rw [List.mem_map]
    constructor
    · rintro ⟨g, hg, hgf⟩
      by_cases hgn : g.Name = name
      · rw [if_pos hgn] at hgf
        rw [← hgf] at hf
        exact absurd hf.symm hne
      · rw [if_neg hgn] at hgf
        rw [← hgf]; exact hg
    · intro hmem
      exact ⟨f, hmem, by rw [if_neg (by rw [hf]; exact hne)]⟩
  · injection h with h
    subst h
    rw [mem_insertEntry]
    constructor
    · rintro (h | h)
      · rw [h] at hf
        exact absurd hf.symm hne
      · exact h
    · exact Or.inr

theorem remove_eq (launchDir : Str) (files new : Dir) (name : Str)
    (h : Remove launchDir (some files) (filepathJoin launchDir name) = some new) :
    new = files.filter (fun f => decide (f.Name ≠ name)) := by
  simp only [Remove, baseOf_join] at h
  split at h
  · cases h
  · cases h
  · injection h with h
    exact h.symm

theorem remove_of_mem (launchDir : Str) (files : Dir) (e : FileInfo)
    (hnodup : (files.map (fun f => f.Name)).Nodup) (he : e ∈ files)
    (hnode : e.node ≠ .dir false) :
    Remove launchDir (some files) (filepathJoin launchDir e.Name)
      = some (files.filter (fun f => decide (f.Name ≠ e.Name))) := by
  have hholds : Holds files e :=
    ⟨he, fun f hf hn => List.inj_on_of_nodup_map hnodup hf he hn⟩
  simp only [Remove, baseOf_join, lookup_of_holds hholds]
  split
  · rename_i heq; cases heq
  · rename_i heq
    injection heq with heq
    rw [heq] at hnode
    exact absurd rfl hnode
  · rfl

/-! ## The old-backup clean-up -/

theorem nodup_names_filter (files : Dir) (p : FileInfo → Bool)
    (h : (files.map (fun f => f.Name)).Nodup) :
    ((files.filter p).map (fun f => f.Name)).Nodup :=
  h.sublist ((List.filter_sublist files).map _)

theorem foldl_remove_where (launchDir : Str) (q : FileInfo → Bool) (l cur : Dir) (c : Nat)
    (hcur : (cur.map (fun f => f.Name)).Nodup) (hl : (l.map (fun f => f.Name)).Nodup)
    (hin : ∀ e ∈ l, q e = true → e ∈ cur ∧ e.node ≠ .dir false) :
    l.foldl (fun (st : FS × Nat) file =>
        if q file then
          match Remove launchDir st.1 (filepathJoin launchDir file.Name) with
          | some files' => (some files', st.2 + 1)
          | none => st
        else st) (some cur, c)
      = (some (cur.filter (fun f => decide (f.Name ∉ (l.filter q).map (fun e => e.Name)))),
          c + (l.filter q).length) := by
  induction l generalizing cur c with
  | nil => simp
  | cons e l ih =>
    rw [List.foldl_cons]
    rw [List.map_cons, List.nodup_cons] at hl
    have hin' : ∀ e2 ∈ l, q e2 = true → e2 ∈ cur ∧ e2.node ≠ .dir false :=
      fun e2 h2 hq => hin e2 (List.mem_cons_of_mem _ h2) hq
    by_cases hq : q e = true
    · obtain ⟨hmem, hnode⟩ := hin e (List.mem_cons_self _ _) hq
      rw [if_pos hq]
      simp only [remove_of_mem launchDir cur e hcur hmem hnode]
      rw [ih _ _ (nodup_names_filter cur _ hcur) hl.2]
      · rw [List.filter_cons, if_pos hq, List.filter_filter]
        refine Prod.ext ?_ ?_
        · simp only [Option.some.injEq]
          apply List.filter_congr
          intro f _
          simp only [List.map_cons, List.mem_cons, not_or, Bool.decide_and, ne_eq]
          rw [Bool.and_comm]
        · simp only [List.length_cons]
          omega
      · intro e2 h2 hq2
        obtain ⟨hm2, hn2⟩ := hin' e2 h2 hq2
        refine ⟨List.mem_filter.mpr ⟨hm2, ?_⟩, hn2⟩
        have : e2.Name ≠ e.Name := fun heq => hl.1 (heq ▸ List.mem_map_of_mem _ h2)
        simpa using this
    · rw [if_neg hq, ih cur c hcur hl.2 hin', List.filter_cons, if_neg hq]

theorem addDate_fixed (loc : Location) (t days o : Int)
    (h : ∀ sec, (loc.lookup sec).1 = o) : AddDate loc t days = t + days * day := by
  unfold AddDate
  simp only [h, ite_self]
  have hdiv := Int.ediv_add_emod t second
  have hday : day = 86400 * second := by unfold day second; norm_num
  rw [hday]
  linear_combination hdiv

/-- C6, the claim as stated fails: in New York on 4 November 2026, 12:00 EST,
a backup last modified on 28 October, 12:30 EDT, is 168.5 hours old, older
than seven days, and the clean-up keeps it: `AddDate(0, 0, -7)` gives
28 October, 12:00 EDT, which is 169 hours back. -/
theorem old_backup_kept_across_dst :
    Contains "work.yaml.backup.20261028_123000".toList ".backup.".toList = true
      ∧ 1793205000 * second < 1793811600 * second - 7 * day
      ∧ AddDate newYork (1793811600 * second) (-7) = 1793203200 * second
      ∧ (cleanupBackups "/d".toList
          (some [⟨"work.yaml.backup.20261028_123000".toList, 1793205000 * second, .file []⟩])
          newYork (1793811600 * second)).1
        = some [⟨"work.yaml.backup.20261028_123000".toList, 1793205000 * second, .file []⟩] := by
  decide

/-- C6, amended: for every directory listing (entries with distinct names),
every time zone and every current time, with removals succeeding (no entry to
remove is a non-empty directory), the old-backup clean-up leaves exactly the
entries that are not old backups, in listing order: an entry is removed if
and only if its name contains `.backup.` and its modification time is
strictly before `now.AddDate(0, 0, -7)`, the same wall-clock time seven
calendar days before now in the local zone; in a zone whose offset never
changes that instant is now minus seven times 24 hours. -/
theorem cleanupBackups_removes_exactly_old (launchDir : Str) (files : Dir) (loc : Location)
    (now : Int)
    (hnodup : (files.map (fun f => f.Name)).Nodup)
    (hrem : ∀ f ∈ files, Contains f.Name ".backup.".toList = true →
      f.ModTime < AddDate loc now (-7) → f.node ≠ .dir false) :
    (cleanupBackups launchDir (some files) loc now).1
        = some (files.filter (fun f =>
            !(Contains f.Name ".backup.".toList && decide (f.ModTime < AddDate loc now (-7)))))
      ∧ (∀ f ∈ files, (f ∉ ((cleanupBackups launchDir (some files) loc now).1).getD [] ↔
          (Contains f.Name ".backup.".toList = true ∧ f.ModTime < AddDate loc now (-7))))
      ∧ (cleanupBackups launchDir (some files) loc now).2
          = (files.filter (fun f =>
              Contains f.Name ".backup.".toList
                && decide (f.ModTime < AddDate loc now (-7)))).length
      ∧ (∀ o, (∀ sec, (loc.lookup sec).1 = o) → AddDate loc now (-7) = now - 7 * day) := by
  have hq : (fun file : FileInfo =>
        Contains file.Name ".backup.".toList && Before file.ModTime (AddDate loc now (-7)))
      = (fun f => Contains f.Name ".backup.".toList && decide (f.ModTime < AddDate loc now (-7))) := by
    funext f
    rfl
  have hfold := foldl_remove_where launchDir
    (fun file : FileInfo =>
      Contains file.Name ".backup.".toList && Before file.ModTime (AddDate loc now (-7)))
    files files 0 hnodup hnodup (by
      intro e he hqe
      refine ⟨he, hrem e he ?_ ?_⟩
      · have := congrFun hq e
        simp only [this, Bool.and_eq_true] at hqe
        exact hqe.1
      · have := congrFun hq e
        simp only [this, Bool.and_eq_true, decide_eq_true_eq] at hqe
        exact hqe.2)
  have hrun : cleanupBackups launchDir (some files) loc now
      = (some (files.filter (fun f => !(Contains f.Name ".backup.".toList
              && decide (f.ModTime < AddDate loc now (-7))))),
          (files.filter (fun f => Contains f.Name ".backup.".toList
              && decide (f.ModTime < AddDate loc now (-7)))).length) := by
    have h0 : cleanupBackups launchDir (some files) loc now = _ := hfold
    rw [h0, hq]
    refine Prod.ext ?_ (by simp)
    simp only [Option.some.injEq]
    apply List.filter_congr
    intro f hf
    rw [Bool.eq_iff_iff]
    simp only [decide_eq_true_eq, List.mem_map, List.mem_filter, Bool.and_eq_true,
      Bool.not_eq_true', Bool.and_eq_false_iff, decide_eq_false_iff_not, not_exists, not_and]
    constructor
    · intro h
      by_contra hc
      simp only [not_or, Bool.not_eq_false, not_not] at hc
      exact h f ⟨hf, hc.1, hc.2⟩ rfl
    · intro h e he hname
      have : e = f := List.inj_on_of_nodup_map hnodup he.1 hf hname
      subst this
      rcases h with h | h
      · rw [h] at he; exact absurd he.2.1 Bool.false_ne_true
      · exact h he.2.2
  refine ⟨by rw [hrun], ?_, by rw [hrun], fun o ho => by
    rw [addDate_fixed loc now (-7) o ho]; ring⟩
  intro f hf
  rw [hrun]
  simp only [Option.getD_some, List.mem_filter, hf, true_and, Bool.not_eq_true',
    Bool.and_eq_false_iff, decide_eq_false_iff_not, not_or, Bool.not_eq_false, not_not]

/-- Witness for C6 amended: the example directory at instant `10 * day`, in
UTC. -/
theorem cleanupBackups_removes_exactly_old_witness :
    (cleanupBackups "/d".toList (some exampleDir) utc (10 * day)).1
      = some (exampleDir.filter (fun f =>
          !(Contains f.Name ".backup.".toList
            && decide (f.ModTime < AddDate utc (10 * day) (-7))))) :=
  (cleanupBackups_removes_exactly_old "/d".toList exampleDir utc (10 * day)
    (by decide) (by decide)).1

/-- Witness for C8: the example directory, input `1`. -/
theorem selection_one_based_witness :
    (main insertionSorter "/d".toList (some exampleDir) "1\n".toList exampleClock).2
        ≠ .invalidSelection ↔
      ∃ k : Int, Atoi (TrimSpace (ReadString "1\n".toList '\n')) = some k ∧ 1 ≤ k
        ∧ k ≤ ((nonTempConfigs (findAllConfigs "/d".toList (some exampleDir))).length : Int) :=
  (selection_one_based insertionSorter "/d".toList (some exampleDir) "1\n".toList exampleClock
    (by decide) (by decide)).1

/-! ## Claim on the failure paths before the backup -/

theorem selectTarget_eq_none_of_invalid (nonTemp : List ConfigFile) (stdin : Str)
    (h : Atoi (TrimSpace (ReadString stdin '\n')) = none
      ∨ ∃ k : Int, Atoi (TrimSpace (ReadString stdin '\n')) = some k
          ∧ (k < 1 ∨ k > (nonTemp.length : Int))) :
    selectTarget nonTemp stdin = none := by
  unfold selectTarget
  rcases h with h | ⟨k, hk, hr⟩
  · simp only [h]
  · simp only [hk, if_pos hr]

/-- C3: for every directory state and every console input, a run in which no
temp file is discovered, or no named config is discovered, or the selection
is non-numeric, less than 1, or greater than the number of named configs,
ends on the corresponding failure and leaves the file state as it was. -/
theorem early_failure_keeps_files (S : SliceSorter) (launchDir : Str) (fs : FS) (stdin : Str)
    (clk : Clock)
    (h : findTempFiles launchDir fs = []
      ∨ nonTempConfigs (findAllConfigs launchDir fs) = []
      ∨ Atoi (TrimSpace (ReadString stdin '\n')) = none
      ∨ ∃ k : Int, Atoi (TrimSpace (ReadString stdin '\n')) = some k
          ∧ (k < 1 ∨ k > ((nonTempConfigs (findAllConfigs launchDir fs)).length : Int))) :
    (main S launchDir fs stdin clk).1 = fs
      ∧ ((main S launchDir fs stdin clk).2 = .noTempFiles
        ∨ (main S launchDir fs stdin clk).2 = .noConfigs
        ∨ (main S launchDir fs stdin clk).2 = .invalidSelection) := by
  by_cases htemp : findTempFiles launchDir fs = []
  · have : main S launchDir fs stdin clk = (fs, .noTempFiles) := by
      unfold main
      simp only [htemp, if_true]
    rw [this]
    exact ⟨rfl, Or.inl rfl⟩
  · obtain ⟨latest, rest, hs⟩ := sort_cons_of_ne_nil S _ htemp
    rw [main_of_sorted S launchDir fs stdin clk latest rest htemp hs]
    by_cases hmenu : nonTempConfigs (findAllConfigs launchDir fs) = []
    · rw [if_pos hmenu]
      exact ⟨rfl, Or.inr (Or.inl rfl)⟩
    · rw [if_neg hmenu]
      have hsel : selectTarget (nonTempConfigs (findAllConfigs launchDir fs)) stdin = none := by
        rcases h with h | h | h | h
        · exact absurd h htemp
        · exact absurd h hmenu
        · exact selectTarget_eq_none_of_invalid _ _ (Or.inl h)
        · exact selectTarget_eq_none_of_invalid _ _ (Or.inr h)
      rw [hsel]
      exact ⟨rfl, Or.inr (Or.inr rfl)⟩

/-- Witness for C3: the example directory, input `7` with one named config. -/
theorem early_failure_keeps_files_witness :
    (main insertionSorter "/d".toList (some exampleDir) "7\n".toList exampleClock).1
      = some exampleDir :=
  (early_failure_keeps_files insertionSorter "/d".toList (some exampleDir) "7\n".toList
    exampleClock (Or.inr (Or.inr (Or.inr ⟨7, by decide, by decide⟩)))).1

/-! ## Removal loops -/

theorem remove_subset (launchDir : Str) (cur new : Dir) (path : Str)
    (h : Remove launchDir (some cur) path = some new) : ∀ f ∈ new, f ∈ cur := by
  unfold Remove at h
  cases hb : baseOf launchDir path with
  | none => simp only [hb] at h; cases h
  | some name =>
    simp only [hb] at h
    split at h
    · cases h
    · cases h
    · injection h with h
      subst h
      intro f hf
      exact (List.mem_filter.mp hf).1

theorem remove_holds (launchDir : Str) (cur new : Dir) (name : Str) (x : FileInfo)
    (hne : name ≠ x.Name) (hx : Holds cur x)
    (h : Remove launchDir (some cur) (filepathJoin launchDir name) = some new) :
    Holds new x := by
  rw [remove_eq launchDir cur new name h]
  refine ⟨List.mem_filter.mpr ⟨hx.1, ?_⟩, fun f hf hn => hx.2 f (List.mem_filter.mp hf).1 hn⟩
  simpa using fun heq : x.Name = name => hne heq.symm

theorem remove_gone (launchDir : Str) (cur new : Dir) (name : Str)
    (h : Remove launchDir (some cur) (filepathJoin launchDir name) = some new) :
    ∀ f ∈ new, f.Name ≠ name := by
  rw [remove_eq launchDir cur new name h]
  intro f hf
  simpa using (List.mem_filter.mp hf).2

theorem cleanupTemp_eq (launchDir : Str) (tempFiles : List ConfigFile) (fs : FS) :
    cleanupTemp launchDir tempFiles fs
      = tempFiles.foldl (removeStep launchDir (fun _ => true) (fun t => t.Path)) (fs, 0) := by
  unfold cleanupTemp
  congr 1

theorem cleanupBackups_eq (launchDir : Str) (fs : FS) (loc : Location) (now : Int) :
    cleanupBackups launchDir fs loc now
      = ((ReadDir fs).getD []).foldl
          (removeStep launchDir
            (fun file => Contains file.Name ".backup.".toList
              && Before file.ModTime (AddDate loc now (-7)))
            (fun file => filepathJoin launchDir file.Name)) (fs, 0) := rfl

theorem foldl_removeStep_subset {α : Type} (launchDir : Str) (p : α → Bool) (path : α → Str)
    (l : List α) (cur : Dir) (c : Nat) :
    ∃ cur', (l.foldl (removeStep launchDir p path) (some cur, c)).1 = some cur'
      ∧ ∀ f ∈ cur', f ∈ cur := by
  induction l generalizing cur c with
  | nil => exact ⟨cur, rfl, fun _ h => h⟩
  | cons a l ih =>
    rw [List.foldl_cons]
    unfold removeStep
    split
    · cases hr : Remove launchDir (some cur) (path a) with
      | none => exact ih cur c
      | some new =>
        obtain ⟨cur', h1, h2⟩ := ih new (c + 1)
        exact ⟨cur', h1, fun f hf => remove_subset launchDir cur new _ hr f (h2 f hf)⟩
    · exact ih cur c

theorem foldl_removeStep_holds {α : Type} (launchDir : Str) (p : α → Bool) (path : α → Str)
    (x : FileInfo) (l : List α) (cur : Dir) (c : Nat)
    (hpath : ∀ a ∈ l, p a = true → ∃ g, path a = filepathJoin launchDir g ∧ g ≠ x.Name)
    (hx : Holds cur x) :
    ∃ cur', (l.foldl (removeStep launchDir p path) (some cur, c)).1 = some cur'
      ∧ Holds cur' x := by
  induction l generalizing cur c with
  | nil => exact ⟨cur, rfl, hx⟩
  | cons a l ih =>
    have hpath' : ∀ b ∈ l, p b = true → ∃ g, path b = filepathJoin launchDir g ∧ g ≠ x.Name :=
      fun b hb => hpath b (List.mem_cons_of_mem _ hb)
    rw [List.foldl_cons]
    unfold removeStep
    split
    · rename_i hp
      obtain ⟨g, hg, hne⟩ := hpath a (List.mem_cons_self _ _) hp
      cases hr : Remove launchDir (some cur) (path a) with
      | none => exact ih cur c hpath' hx
      | some new =>
        rw [hg] at hr
        exact ih new (c + 1) hpath' (remove_holds launchDir cur new g x hne hx hr)
    · exact ih cur c hpath' hx

theorem foldl_removeStep_count {α : Type} (launchDir : Str) (path : α → Str) (name : α → Str)
    (l : List α) (cur : Dir) (c : Nat)
    (hpath : ∀ a ∈ l, path a = filepathJoin launchDir (name a)) :
    (l.foldl (removeStep launchDir (fun _ => true) path) (some cur, c)).2 ≤ c + l.length
      ∧ ((l.foldl (removeStep launchDir (fun _ => true) path) (some cur, c)).2 = c + l.length →
          ∀ a ∈ l, ∀ f ∈ ((l.foldl (removeStep launchDir (fun _ => true) path)
            (some cur, c)).1).getD [], f.Name ≠ name a) := by
  induction l generalizing cur c with
  | nil => simp
  | cons a l ih =>
    have hpath' : ∀ b ∈ l, path b = filepathJoin launchDir (name b) :=
      fun b hb => hpath b (List.mem_cons_of_mem _ hb)
    rw [List.foldl_cons]
    have hstep : removeStep launchDir (fun _ => true) path (some cur, c) a
        = match Remove launchDir (some cur) (path a) with
          | some files' => (some files', c + 1)
          | none => (some cur, c) := rfl
    rw [hstep]
    cases hr : Remove launchDir (some cur) (path a) with
    | none =>
      obtain ⟨h1, _⟩ := ih cur c hpath'
      simp only [List.length_cons]
      exact ⟨by omega, fun h => by omega⟩
    | some new =>
      obtain ⟨h1, h2⟩ := ih new (c + 1) hpath'
      simp only [List.length_cons]
      refine ⟨by omega, fun h => ?_⟩
      have h2' := h2 (by omega)
      intro b hb f hf
      rcases List.mem_cons.mp hb with rfl | hb
      · obtain ⟨cur', hc1, hc2⟩ := foldl_removeStep_subset launchDir (fun _ => true) path l
          new (c + 1)
        rw [hc1] at hf
        rw [hpath b (List.mem_cons_self _ _)] at hr
        exact remove_gone launchDir cur new _ hr f (hc2 f hf)
      · exact h2' b hb f hf

/-! ## Names of targets, backups and temp files -/

theorem mem_nonTempConfigs {launchDir : Str} {fs : FS} {target : ConfigFile}
    (h : target ∈ nonTempConfigs (findAllConfigs launchDir fs)) :
    ∃ e ∈ fs.getD [], target.Path = filepathJoin launchDir e.Name
      ∧ HasSuffix e.Name ".yaml".toList = true ∧ HasPrefix e.Name "temp".toList = false := by
  rw [nonTempConfigs_eq, List.mem_filter] at h
  obtain ⟨e, he, h1, _, hrec⟩ := mem_findAllConfigs h.1
  have ht := h.2
  rw [hrec] at ht
  exact ⟨e, he, by rw [hrec], h1, by simpa using ht⟩

theorem mem_findTempFiles {launchDir : Str} {fs : FS} {t : ConfigFile}
    (h : t ∈ findTempFiles launchDir fs) :
    ∃ e ∈ fs.getD [], t.Path = filepathJoin launchDir e.Name
      ∧ HasPrefix e.Name "temp".toList = true := by
  rw [findTempFiles_eq_filter, List.mem_filter] at h
  obtain ⟨e, he, _, _, hrec⟩ := mem_findAllConfigs h.1
  have ht := h.2
  rw [hrec] at ht
  exact ⟨e, he, by rw [hrec], ht⟩

theorem backupName_ne (f stamp : Str) : f ++ ".backup.".toList ++ stamp ≠ f := by
  intro h
  have := congrArg List.length h
  simp at this

theorem tempName_ne (f g stamp : Str) (hf1 : HasSuffix f ".yaml".toList = true)
    (hf2 : HasPrefix f "temp".toList = false) (hg : HasPrefix g "temp".toList = true) :
    g ≠ f ∧ g ≠ f ++ ".backup.".toList ++ stamp := by
  have hnot : ¬ "temp".toList <+: f := by
    intro h
    rw [(hasPrefix_iff _ _).mpr h] at hf2
    cases hf2
  constructor
  · intro h
    subst h
    exact hnot ((hasPrefix_iff _ _).mp hg)
  · intro h
    subst h
    have hpre := (hasPrefix_iff _ _).mp hg
    obtain ⟨t, ht⟩ := (hasSuffix_iff _ _).mp hf1
    have hlen : "temp".toList.length ≤ f.length := by
      rw [← ht]; simp
    have hf : f <+: f ++ ".backup.".toList ++ stamp := by
      rw [List.append_assoc]; exact List.prefix_append _ _
    exact hnot (List.prefix_of_prefix_length_le hpre hf hlen)

theorem selectTarget_mem {nonTemp : List ConfigFile} {stdin : Str} {target : ConfigFile}
    (h : selectTarget nonTemp stdin = some target) : target ∈ nonTemp := by
  obtain ⟨k, _, _, _, hget⟩ := (selectTarget_eq_some _ _ _).mp h
  exact List.get?_mem hget

theorem main_past_selection (S : SliceSorter) (launchDir : Str) (fs : FS) (stdin : Str)
    (clk : Clock) (target : ConfigFile)
    (h : (main S launchDir fs stdin clk).2.target? = some target) :
    ∃ latest rest, S.sort newerFirst (findTempFiles launchDir fs) = latest :: rest
      ∧ target ∈ nonTempConfigs (findAllConfigs launchDir fs)
      ∧ main S launchDir fs stdin clk
          = afterSelection launchDir fs clk (latest :: rest) latest target := by
  by_cases htemp : findTempFiles launchDir fs = []
  · have : main S launchDir fs stdin clk = (fs, .noTempFiles) := by
      unfold main
      simp only [htemp, if_true]
    rw [this] at h
    cases h
  · obtain ⟨latest, rest, hs⟩ := sort_cons_of_ne_nil S _ htemp
    have hmain := main_of_sorted S launchDir fs stdin clk latest rest htemp hs
    rw [hmain] at h ⊢
    by_cases hmenu : nonTempConfigs (findAllConfigs launchDir fs) = []
    · rw [if_pos hmenu] at h
      cases h
    · rw [if_neg hmenu] at h ⊢
      cases hsel : selectTarget (nonTempConfigs (findAllConfigs launchDir fs)) stdin with
      | none => rw [hsel] at h; cases h
      | some t =>
        rw [hsel] at h
        simp only at h ⊢
        rw [afterSelection_target] at h
        injection h with h
        subst h
        exact ⟨latest, rest, hs, selectTarget_mem hsel, rfl⟩

/-! ## The clean-up phase keeps what the run wrote -/

theorem cleanup_holds (launchDir : Str) (sorted : List ConfigFile) (files2 : Dir)
    (loc : Location) (now : Int)
    (x : FileInfo)
    (hsorted : ∀ t ∈ sorted, ∃ g, t.Path = filepathJoin launchDir g ∧ g ≠ x.Name)
    (hx : Holds files2 x)
    (hfresh : ¬ x.ModTime < AddDate loc now (-7)) :
    ∃ final,
      (cleanupBackups launchDir (cleanupTemp launchDir sorted (some files2)).1 loc now).1
          = some final
        ∧ Holds final x
        ∧ ∀ f ∈ final, f ∈ ((cleanupTemp launchDir sorted (some files2)).1).getD [] := by
  rw [cleanupTemp_eq]
  obtain ⟨cur, hcur, hxcur⟩ := foldl_removeStep_holds launchDir (fun _ => true)
    (fun t : ConfigFile => t.Path) x sorted files2 0 (fun t ht _ => hsorted t ht) hx
  rw [hcur, cleanupBackups_eq]
  have hq : ∀ a ∈ cur, (Contains a.Name ".backup.".toList
      && Before a.ModTime (AddDate loc now (-7))) = true →
      ∃ g, filepathJoin launchDir a.Name = filepathJoin launchDir g ∧ g ≠ x.Name := by
    intro a ha hqa
    refine ⟨a.Name, rfl, ?_⟩
    intro hname
    have hax : a = x := hxcur.2 a ha hname
    subst hax
    rw [Bool.and_eq_true] at hqa
    have hb := hqa.2
    simp only [Before, decide_eq_true_eq] at hb
    exact hfresh hb
  obtain ⟨final, hfinal, hxfinal⟩ := foldl_removeStep_holds launchDir _ _ x cur cur 0 hq hxcur
  obtain ⟨final', hfinal', hsub⟩ := foldl_removeStep_subset launchDir
    (fun file : FileInfo => Contains file.Name ".backup.".toList
      && Before file.ModTime (AddDate loc now (-7)))
    (fun file => filepathJoin launchDir file.Name) cur cur 0
  have heq : final' = final := by
    have := hfinal'.symm.trans hfinal
    injection this
  subst heq
  exact ⟨final', hfinal, hxfinal, hsub⟩

theorem sorted_temp_paths (S : SliceSorter) (launchDir : Str) (fs : FS)
    (f stamp : Str) (hf1 : HasSuffix f ".yaml".toList = true)
    (hf2 : HasPrefix f "temp".toList = false) :
    ∀ t ∈ S.sort newerFirst (findTempFiles launchDir fs),
      ∃ g, t.Path = filepathJoin launchDir g ∧ g ≠ f ∧ g ≠ f ++ ".backup.".toList ++ stamp := by
  intro t ht
  obtain ⟨e, _, hpath, htemp⟩ :=
    mem_findTempFiles ((S.perm newerFirst _).mem_iff.mp ht)
  exact ⟨e.Name, hpath, tempName_ne f e.Name stamp hf1 hf2 htemp⟩

/-! ## Claim on the backup -/

/-- C2: for every run that reaches the backup step with the target readable
and the backup path writable, the file at the backup path after the run
holds the content the target had before the run.  The clock is taken to be
sane: the backup the run has just written is not before the instant seven
calendar days before the clock reading of the old-backup clean-up. -/
theorem backup_is_copy_of_target (S : SliceSorter) (launchDir : Str) (fs : FS) (stdin : Str)
    (clk : Clock) (target : ConfigFile) (data : Str)
    (hreach : (main S launchDir fs stdin clk).2.target? = some target)
    (hread : ReadFile launchDir fs target.Path = some data)
    (hwrite : (WriteFile launchDir fs (backupPathOf target clk.stamp) data
      clk.backupWrite).isSome = true)
    (hclock : ¬ clk.backupWrite < AddDate clk.loc clk.cleanupNow (-7)) :
    ReadFile launchDir (main S launchDir fs stdin clk).1 (backupPathOf target clk.stamp)
      = some data := by
  obtain ⟨latest, rest, hs, hmem, hmain⟩ := main_past_selection S launchDir fs stdin clk target hreach
  obtain ⟨e, _, hpath, hf1, hf2⟩ := mem_nonTempConfigs hmem
  cases fs with
  | none => simp [ReadFile] at hread
  | some files =>
    obtain ⟨files1, hw⟩ := Option.isSome_iff_exists.mp hwrite
    have hbpath : backupPathOf target clk.stamp
        = filepathJoin launchDir (e.Name ++ ".backup.".toList ++ clk.stamp) := by
      unfold backupPathOf
      rw [hpath, List.append_assoc, join_append, List.append_assoc]
    rw [hmain, hbpath]
    rw [hbpath] at hw
    have hB := writeFile_holds launchDir files files1 _ data clk.backupWrite hw
    unfold afterSelection
    simp only [copyFile, hread, hbpath, hw]
    cases hu : updateConfig launchDir (some files1) latest.Path target.Path target.Name
        clk.updateWrite with
    | none => exact readFile_of_holds launchDir files1 _ data clk.backupWrite hB
    | some files2 =>
      simp only
      have hB2 : Holds files2 ⟨e.Name ++ ".backup.".toList ++ clk.stamp, clk.backupWrite,
          .file data⟩ := by
        unfold updateConfig at hu
        cases hr : ReadFile launchDir (some files1) latest.Path with
        | none => rw [hr] at hu; cases hu
        | some tempData =>
          rw [hr, hpath] at hu
          exact holds_of_sameAt
            (writeFile_sameAt launchDir files1 files2 e.Name _ _ clk.updateWrite
              (backupName_ne e.Name clk.stamp) hu) hB
      have hsorted : ∀ t ∈ latest :: rest, ∃ g, t.Path = filepathJoin launchDir g
          ∧ g ≠ e.Name ++ ".backup.".toList ++ clk.stamp := by
        intro t ht
        rw [← hs] at ht
        obtain ⟨g, hg, _, hne⟩ := sorted_temp_paths S launchDir (some files) e.Name clk.stamp
          hf1 hf2 t ht
        exact ⟨g, hg, hne⟩
      obtain ⟨final, hfinal, hBf, _⟩ := cleanup_holds launchDir (latest :: rest) files2
        clk.loc clk.cleanupNow _ hsorted hB2 hclock
      rw [hfinal]
      exact readFile_of_holds launchDir final _ data clk.backupWrite hBf

/-- Witness for C2: the example directory, input `1`. -/
theorem backup_is_copy_of_target_witness :
    ReadFile "/d".toList
        (main insertionSorter "/d".toList (some exampleDir) "1\n".toList exampleClock).1
        (backupPathOf ⟨"work".toList, "/d/work.yaml".toList, 5 * day, false⟩
          exampleClock.stamp)
      = some "name: work\nwindows: old\n".toList :=
  backup_is_copy_of_target insertionSorter "/d".toList (some exampleDir) "1\n".toList
    exampleClock ⟨"work".toList, "/d/work.yaml".toList, 5 * day, false⟩
    "name: work\nwindows: old\n".toList (by decide) (by decide) (by decide) (by decide)

/-! ## Claim on the state after a successful run -/

theorem afterSelection_updated (launchDir : Str) (files : Dir) (clk : Clock)
    (sorted : List ConfigFile) (latest target t : ConfigFile) (n m : Nat)
    (h : (afterSelection launchDir (some files) clk sorted latest target).2 = .updated t n m) :
    ∃ data files1 tempData files2,
      WriteFile launchDir (some files) (backupPathOf target clk.stamp) data clk.backupWrite
          = some files1
        ∧ WriteFile launchDir (some files1) target.Path (newContent tempData target.Name)
            clk.updateWrite = some files2
        ∧ n = (cleanupTemp launchDir sorted (some files2)).2
        ∧ (afterSelection launchDir (some files) clk sorted latest target).1
            = (cleanupBackups launchDir (cleanupTemp launchDir sorted (some files2)).1
                clk.loc clk.cleanupNow).1 := by
  unfold afterSelection at h ⊢
  unfold copyFile at h ⊢
  cases hr : ReadFile launchDir (some files) target.Path with
  | none => rw [hr] at h; cases h
  | some data =>
    simp only [hr] at h ⊢
    cases hw : WriteFile launchDir (some files) (backupPathOf target clk.stamp) data
        clk.backupWrite with
    | none => rw [hw] at h; cases h
    | some files1 =>
      simp only [hw] at h ⊢
      unfold updateConfig at h ⊢
      cases hr2 : ReadFile launchDir (some files1) latest.Path with
      | none => rw [hr2] at h; cases h
      | some tempData =>
        simp only [hr2] at h ⊢
        cases hw2 : WriteFile launchDir (some files1) target.Path
            (newContent tempData target.Name) clk.updateWrite with
        | none => rw [hw2] at h; cases h
        | some files2 =>
          simp only [hw2] at h ⊢
          injection h with _ hn _
          exact ⟨data, files1, tempData, files2, hw, hw2, hn.symm, rfl⟩

/-- C5: for every run in which the update succeeds and every removal of a
temp file succeeds (the count of removed temp files is the number of
discovered temp files), the file state after the whole run, old-backup
clean-up included, has no entry at the path of any discovered temp file, and
still has the target file and the backup made in this run.  The clock is
taken to be sane: the two files the run has just written are not before the
instant seven calendar days before the clock reading of the old-backup
clean-up. -/
theorem temp_files_gone_target_and_backup_stay (S : SliceSorter) (launchDir : Str) (fs : FS)
    (stdin : Str) (clk : Clock) (target : ConfigFile) (n m : Nat)
    (hdone : (main S launchDir fs stdin clk).2 = .updated target n m)
    (hall : n = (findTempFiles launchDir fs).length)
    (hclock : ¬ clk.backupWrite < AddDate clk.loc clk.cleanupNow (-7)
      ∧ ¬ clk.updateWrite < AddDate clk.loc clk.cleanupNow (-7)) :
    (∀ t ∈ findTempFiles launchDir fs,
        ∀ f ∈ ((main S launchDir fs stdin clk).1).getD [],
          filepathJoin launchDir f.Name ≠ t.Path)
      ∧ (ReadFile launchDir (main S launchDir fs stdin clk).1 target.Path).isSome = true
      ∧ (ReadFile launchDir (main S launchDir fs stdin clk).1
          (backupPathOf target clk.stamp)).isSome = true := by
  have hreach : (main S launchDir fs stdin clk).2.target? = some target := by rw [hdone]; rfl
  obtain ⟨latest, rest, hs, hmem, hmain⟩ :=
    main_past_selection S launchDir fs stdin clk target hreach
  obtain ⟨e, _, hpath, hf1, hf2⟩ := mem_nonTempConfigs hmem
  cases fs with
  | none =>
    have : findTempFiles launchDir none = [] := rfl
    rw [this] at hs
    have hperm := S.perm newerFirst []
    rw [hs] at hperm
    exact absurd (List.Perm.eq_nil hperm) (by simp)
  | some files =>
    rw [hmain] at hdone ⊢
    obtain ⟨data, files1, tempData, files2, hw, hw2, hn, hfs⟩ :=
      afterSelection_updated launchDir files clk _ latest target target n m hdone
    have hbpath : backupPathOf target clk.stamp
        = filepathJoin launchDir (e.Name ++ ".backup.".toList ++ clk.stamp) := by
      unfold backupPathOf
      rw [hpath, List.append_assoc, join_append, List.append_assoc]
    rw [hbpath] at hw ⊢
    rw [hpath] at hw2 ⊢
    rw [hfs]
    have hB := writeFile_holds launchDir files files1 _ data clk.backupWrite hw
    have hB2 := holds_of_sameAt
      (writeFile_sameAt launchDir files1 files2 e.Name _ _ clk.updateWrite
        (backupName_ne e.Name clk.stamp) hw2) hB
    have hT2 := writeFile_holds launchDir files1 files2 _ _ clk.updateWrite hw2
    have hsorted := sorted_temp_paths S launchDir (some files) e.Name clk.stamp hf1 hf2
    rw [hs] at hsorted
    obtain ⟨final, hfinal, hBf, hsub⟩ := cleanup_holds launchDir (latest :: rest) files2
      clk.loc clk.cleanupNow _ (fun t ht => by
        obtain ⟨g, hg, _, hne⟩ := hsorted t ht
        exact ⟨g, hg, hne⟩) hB2 hclock.1
    obtain ⟨final', hfinal', hTf, _⟩ := cleanup_holds launchDir (latest :: rest) files2
      clk.loc clk.cleanupNow _ (fun t ht => by
        obtain ⟨g, hg, hne, _⟩ := hsorted t ht
        exact ⟨g, hg, hne⟩) hT2 hclock.2
    have heq : final' = final := by
      have := hfinal'.symm.trans hfinal
      injection this
    subst heq
    rw [hfinal]
    refine ⟨?_, ?_, ?_⟩
    · intro t ht f hf hjoin
      obtain ⟨et, _, htpath, _⟩ := mem_findTempFiles ht
      have hlen : (latest :: rest).length = (findTempFiles launchDir (some files)).length := by
        rw [← hs]; exact (S.perm newerFirst _).length_eq
      have hcount := foldl_removeStep_count launchDir (fun c : ConfigFile => c.Path)
        (fun c : ConfigFile => (baseOf launchDir c.Path).getD []) (latest :: rest) files2 0
        (by
          intro a ha
          obtain ⟨g, hg, _⟩ := hsorted a ha
          show a.Path = filepathJoin launchDir ((baseOf launchDir a.Path).getD [])
          rw [hg, baseOf_join]
          rfl)
      rw [← cleanupTemp_eq] at hcount
      have hgone := hcount.2 (by rw [← hn, hall, hlen]; simp) t
        (by rw [← hs]; exact (S.perm newerFirst _).mem_iff.mpr ht) f (hsub f hf)
      apply hgone
      show f.Name = (baseOf launchDir t.Path).getD []
      rw [← hjoin, baseOf_join]
      rfl
    · rw [readFile_of_holds launchDir final' _ _ clk.updateWrite hTf]
      rfl
    · rw [readFile_of_holds launchDir final' _ _ clk.backupWrite hBf]
      rfl

/-- Witness for C5: the example directory, input `1`; both temp files are
removed. -/
theorem temp_files_gone_target_and_backup_stay_witness :
    (ReadFile "/d".toList
        (main insertionSorter "/d".toList (some exampleDir) "1\n".toList exampleClock).1
        "/d/work.yaml".toList).isSome = true :=
  (temp_files_gone_target_and_backup_stay insertionSorter "/d".toList (some exampleDir)
    "1\n".toList exampleClock ⟨"work".toList, "/d/work.yaml".toList, 5 * day, false⟩ 2 1
    (by decide) (by decide) (by decide)).2.1

end WarpLaunch
